import Mathlib

/-!
The simple-calculator: tokenizer, recursive-descent parser and evaluator.

A shallow embedding of `calculator.h`.

* `int64_t` values are integers, every arithmetic operation being followed by
  `wrap64`, the reduction modulo `2^64` into `[-2^63, 2^63)`. Signed overflow of
  `+`, `-`, `*`, of the negations and of the digit accumulation, undefined in
  C++, is thereby given the two's-complement wraparound that the specification
  prescribes. The quotient `-2^63 / -1` is different: the division instruction
  traps, so `Operation::Evaluate` returns no value there; this is the outcome
  `Error.divisionOverflow`.
* The input stream `std::istream* in_` is the list of characters not yet read;
  `get` takes the head, `putback` puts it back, and every read at the end of the
  input fails. Characters are Unicode scalar values; those outside ASCII are
  neither digits nor grammar symbols, like the bytes that encode them.
* C++ exceptions are the `error` results; the `std::runtime_error` messages of
  the tokenizer, the parser and the evaluator are constructors of `Error`.
* The mutually recursive `ReadExpression` / `ReadTerm` / `ReadFactor` and their
  `while` loops take a recursion budget (`fuel`); `ParseExpression` supplies a
  budget computed from the length of the input, which is shown to be enough
  (`ParseExpression_ne_outOfFuel`), and a larger budget never changes a result
  (`ParseExpression_eq_of_fuel`).
-/

namespace Calculator

/-! ## Machine integers -/

/-- Reduction of an integer to the signed 64-bit range (two's complement). -/
def wrap64 (x : Int) : Int :=
  (x + 9223372036854775808) % 18446744073709551616 - 9223372036854775808

/-- The values an `int64_t` can hold. -/
def InInt64 (x : Int) : Prop :=
  -9223372036854775808 ≤ x ∧ x < 9223372036854775808

instance (x : Int) : Decidable (InInt64 x) := by
  unfold InInt64; infer_instance

/-! ## Failures -/

/-- The ways a call into `calculator.h` ends without a value: the
`std::runtime_error`s it throws, by message, and the trapping division. -/
inductive Error where
  /-- The message "current token not number" (`GetNumber`). -/
  | notNumber
  /-- The message "current token not symbol" (`GetSymbol`). -/
  | notSymbol
  /-- The message "invalid factor minus" (`ReadFactor`). -/
  | invalidFactorMinus
  /-- The message "invalid factor" (`ReadFactor`). -/
  | invalidFactor
  /-- The message "division by zero" (`Operation::Evaluate`). -/
  | divisionByZero
  /-- Not an exception: `l / r` in `Operation::Evaluate` with `l = -2^63` and
  `r = -1`, whose quotient is not an `int64_t`; the division is undefined and
  the program traps instead of returning. -/
  | divisionOverflow
  deriving DecidableEq, Repr

/-- The two failures of `ReadFactor` are the syntax errors of the specification. -/
def Error.isSyntaxError : Error → Bool
  | .invalidFactorMinus => true
  | .invalidFactor => true
  | _ => false

/-- The failures of `GetNumber` and `GetSymbol` are the type mismatches. -/
def Error.isTypeMismatch : Error → Bool
  | .notNumber => true
  | .notSymbol => true
  | _ => false

deriving instance DecidableEq for Except

/-- Outcome of a parsing function: a value, a thrown error, or the recursion
budget of the model ran out. -/
inductive Result (α : Type) where
  | ok (a : α)
  | error (e : Error)
  | outOfFuel
  deriving DecidableEq, Repr

/-! ## Tokenizer -/

/-- The enumeration `Tokenizer::TokenType`. -/
inductive TokenType where
  | kNumber
  | kSymbol
  | kEnd
  deriving DecidableEq, Repr

/-- The members of `class Tokenizer`; `in_` is the unread part of the stream. -/
structure Tokenizer where
  in_ : List Char
  type_ : TokenType
  number_ : Int
  symbol_ : Char
  deriving DecidableEq, Repr

/-- The test `'0' <= c && c <= '9'`. -/
def isDigit (c : Char) : Bool :=
  decide ('0' ≤ c) && decide (c ≤ '9')

/-- The test `c == '+' || c == '-' || c == '*' || c == '/' || c == '(' || c == ')'`. -/
def isGrammarSymbol (c : Char) : Bool :=
  c == '+' || c == '-' || c == '*' || c == '/' || c == '(' || c == ')'

/-- The `while (in_->get(c))` loop of `Tokenizer::Consume`, with its locals
`is_number` and `res`; the list is what `in_` still holds. -/
def Tokenizer.consumeLoop (t : Tokenizer) : List Char → Bool → Int → Tokenizer
  | [], is_number, res =>
    if is_number then
      { t with in_ := [], type_ := .kNumber, number_ := res }
    else
      { t with in_ := [], type_ := .kEnd }
  | c :: cs, is_number, res =>
    if is_number then
      if isDigit c then
        t.consumeLoop cs true (wrap64 (wrap64 (res * 10) + ((c.toNat : Int) - 48)))
      else
        { t with in_ := c :: cs, type_ := .kNumber, number_ := res }
    else if isDigit c then
      t.consumeLoop cs true (wrap64 (wrap64 (res * 10) + ((c.toNat : Int) - 48)))
    else if !isGrammarSymbol c then
      t.consumeLoop cs false res
    else
      { t with in_ := cs, type_ := .kSymbol, symbol_ := c }

/-- The method `Tokenizer::Consume`. -/
def Tokenizer.Consume (t : Tokenizer) : Tokenizer :=
  t.consumeLoop t.in_ false 0

/-- The constructor `Tokenizer(std::istream* in)`: the members other than `in_`
start uninitialised (any value; here `kEnd`, `0`, NUL) and `Consume` runs once. -/
def Tokenizer.new (input : List Char) : Tokenizer :=
  Tokenizer.Consume { in_ := input, type_ := .kEnd, number_ := 0, symbol_ := '\x00' }

/-- The method `Tokenizer::GetType`. -/
def Tokenizer.GetType (t : Tokenizer) : TokenType :=
  t.type_

/-- The method `Tokenizer::GetNumber`. -/
def Tokenizer.GetNumber (t : Tokenizer) : Except Error Int :=
  if t.type_ ≠ .kNumber then .error .notNumber else .ok t.number_

/-- The method `Tokenizer::GetSymbol`. -/
def Tokenizer.GetSymbol (t : Tokenizer) : Except Error Char :=
  if t.type_ ≠ .kSymbol then .error .notSymbol else .ok t.symbol_

/-- The token of the specification's data model. -/
inductive Token where
  | Number (n : Int)
  | Symbol (c : Char)
  | End
  deriving DecidableEq, Repr

/-- The current token: what `GetType`, `GetNumber` and `GetSymbol` let a caller see. -/
def Tokenizer.current (t : Tokenizer) : Token :=
  match t.type_ with
  | .kNumber => .Number t.number_
  | .kSymbol => .Symbol t.symbol_
  | .kEnd => .End

/-! ## Expressions -/

/-- The classes `Constant` and `Operation` deriving from `Expression`. -/
inductive Expression where
  | Constant (value_ : Int) (is_neg_ : Bool)
  | Operation (op_ : Char) (l_ r_ : Expression) (is_neg_ : Bool)
  deriving DecidableEq, Repr

/-- The methods `Constant::ApplyMinus` and `Operation::ApplyMinus`: `is_neg_ ^= true`. -/
def Expression.ApplyMinus : Expression → Expression
  | .Constant v n => .Constant v (xor n true)
  | .Operation op l r n => .Operation op l r (xor n true)

/-- The methods `Constant::Evaluate` and `Operation::Evaluate`. The division
`l / r` is guarded against `r == 0` only; at `l = -2^63`, `r = -1` it traps. -/
def Expression.Evaluate : Expression → Except Error Int
  | .Constant v n => .ok (if n then wrap64 (-v) else v)
  | .Operation op l r n =>
    match l.Evaluate with
    | .error e => .error e
    | .ok lv =>
      match r.Evaluate with
      | .error e => .error e
      | .ok rv =>
        let res : Except Error Int :=
          if op = '+' then .ok (wrap64 (lv + rv))
          else if op = '-' then .ok (wrap64 (lv - rv))
          else if op = '*' then .ok (wrap64 (lv * rv))
          else if op = '/' then
            if rv = 0 then .error .divisionByZero
            else if lv = -9223372036854775808 ∧ rv = -1 then .error .divisionOverflow
            else .ok (wrap64 (Int.tdiv lv rv))
          else .ok 0
        match res with
        | .error e => .error e
        | .ok v => .ok (if n then wrap64 (v * -1) else v)

/-! ## Parser -/

/-- The condition `GetType() == kSymbol && GetSymbol() == c` (short-circuit). -/
def Tokenizer.symbolIs (t : Tokenizer) (c : Char) : Except Error Bool :=
  if t.GetType = .kSymbol then
    match t.GetSymbol with
    | .error e => .error e
    | .ok s => .ok (s == c)
  else .ok false

/-- The condition `GetType() == kSymbol && (GetSymbol() == c || GetSymbol() == d)`. -/
def Tokenizer.symbolIsEither (t : Tokenizer) (c d : Char) : Except Error Bool :=
  if t.GetType = .kSymbol then
    match t.GetSymbol with
    | .error e => .error e
    | .ok s =>
      if s == c then .ok true
      else
        match t.GetSymbol with
        | .error e => .error e
        | .ok s2 => .ok (s2 == d)
  else .ok false

mutual

/-- The function `ReadExpression`: one term, then the `+`/`-` loop. -/
def ReadExpression : Nat → Tokenizer → Result (Expression × Tokenizer)
  | 0, _ => .outOfFuel
  | fuel + 1, t =>
    match ReadTerm fuel t with
    | .ok (node, t1) => ReadExpressionLoop fuel node t1
    | .error e => .error e
    | .outOfFuel => .outOfFuel

/-- The `while` loop of `ReadExpression`, `node` being its accumulator. -/
def ReadExpressionLoop : Nat → Expression → Tokenizer → Result (Expression × Tokenizer)
  | 0, _, _ => .outOfFuel
  | fuel + 1, node, t =>
    match t.symbolIsEither '+' '-' with
    | .error e => .error e
    | .ok false => .ok (node, t)
    | .ok true =>
      match t.GetSymbol with
      | .error e => .error e
      | .ok op =>
        match ReadTerm fuel t.Consume with
        | .ok (right, t1) => ReadExpressionLoop fuel (.Operation op node right false) t1
        | .error e => .error e
        | .outOfFuel => .outOfFuel

/-- The function `ReadTerm`: one factor, then the `*`/`/` loop. -/
def ReadTerm : Nat → Tokenizer → Result (Expression × Tokenizer)
  | 0, _ => .outOfFuel
  | fuel + 1, t =>
    match ReadFactor fuel t with
    | .ok (node, t1) => ReadTermLoop fuel node t1
    | .error e => .error e
    | .outOfFuel => .outOfFuel

/-- The `while` loop of `ReadTerm`, `node` being its accumulator. -/
def ReadTermLoop : Nat → Expression → Tokenizer → Result (Expression × Tokenizer)
  | 0, _, _ => .outOfFuel
  | fuel + 1, node, t =>
    match t.symbolIsEither '*' '/' with
    | .error e => .error e
    | .ok false => .ok (node, t)
    | .ok true =>
      match t.GetSymbol with
      | .error e => .error e
      | .ok op =>
        match ReadFactor fuel t.Consume with
        | .ok (node_right, t1) =>
          ReadTermLoop fuel (.Operation op node node_right false) t1
        | .error e => .error e
        | .outOfFuel => .outOfFuel

/-- The function `ReadFactor`. -/
def ReadFactor : Nat → Tokenizer → Result (Expression × Tokenizer)
  | 0, _ => .outOfFuel
  | fuel + 1, t =>
    match t.symbolIs '-' with
    | .error e => .error e
    | .ok true =>
      let t1 := t.Consume
      if t1.GetType = .kNumber then
        match t1.GetNumber with
        | .error e => .error e
        | .ok res => .ok ((Expression.Constant res false).ApplyMinus, t1.Consume)
      else
        match t1.symbolIs '(' with
        | .error e => .error e
        | .ok true =>
          match ReadExpression fuel t1.Consume with
          | .ok (res, t2) => .ok (res.ApplyMinus, t2.Consume)
          | .error e => .error e
          | .outOfFuel => .outOfFuel
        | .ok false => .error .invalidFactorMinus
    | .ok false =>
      if t.GetType = .kNumber then
        match t.GetNumber with
        | .error e => .error e
        | .ok res => .ok (Expression.Constant res false, t.Consume)
      else
        match t.symbolIs '(' with
        | .error e => .error e
        | .ok true =>
          match ReadExpression fuel t.Consume with
          | .ok (res, t2) => .ok (res, t2.Consume)
          | .error e => .error e
          | .outOfFuel => .outOfFuel
        | .ok false => .error .invalidFactor

end

/-- The recursion budget `ParseExpression` hands to `ReadExpression`: three
levels of calls for the current token and for every unread character, and
three more. -/
def parseFuel (t : Tokenizer) : Nat :=
  3 * (t.in_.length + 1) + 3

/-- The function `ParseExpression`. -/
def ParseExpression (t : Tokenizer) : Result (Expression × Tokenizer) :=
  ReadExpression (parseFuel t) t

/-- Modelled from the spec: the entry point `EvaluateExpression` of `eval.h`,
which is not among the sources. Section 6: it "constructs a Lexer over `input`,
drives the parser to a complete AST, evaluates it, and returns the integer". -/
def EvaluateExpression (input : List Char) : Result Int :=
  match ParseExpression (Tokenizer.new input) with
  | .ok (e, _) =>
    match e.Evaluate with
    | .ok v => .ok v
    | .error err => .error err
  | .error err => .error err
  | .outOfFuel => .outOfFuel

/-! ## Notions used to state the properties -/

/-- An upper bound on the number of tokens still to be seen: the current one,
unless it is `End`, and at most one for every unread character. -/
def Tokenizer.pending (t : Tokenizer) : Nat :=
  t.in_.length + (if t.type_ = .kEnd then 0 else 1)

/-- A relation between tokenizers that the parser cannot see through: related
tokenizers show the same current token, or `End` against a `)` (neither starts a
factor, both stop a loop), and stay related after `Consume`. -/
structure ParserSim (R : Tokenizer → Tokenizer → Prop) : Prop where
  look : ∀ {t t' : Tokenizer}, R t t' →
    t.current = t'.current ∨ (t.current = .End ∧ t'.current = .Symbol ')')
  consume : ∀ {t t' : Tokenizer}, R t t' → R t.Consume t'.Consume

/-- Two parse outcomes agree up to `R`: the same tree with related tokenizers,
the same error, or both out of budget. -/
def ResultSim (R : Tokenizer → Tokenizer → Prop) :
    Result (Expression × Tokenizer) → Result (Expression × Tokenizer) → Prop
  | .ok p, .ok q => p.1 = q.1 ∧ R p.2 q.2
  | .error a, .error b => a = b
  | .outOfFuel, .outOfFuel => True
  | _, _ => False

/-- A character the tokenizer discards: neither a digit nor a grammar symbol. -/
def isNoise (c : Char) : Bool :=
  !isDigit c && !isGrammarSymbol c

/-- The number a run of decimal digits denotes. -/
def decimalValue (ds : List Char) : Nat :=
  ds.foldl (fun acc c => acc * 10 + (c.toNat - 48)) 0

/-- A decimal literal: a non-empty run of digits. -/
def IsLiteral (ds : List Char) : Prop :=
  ds ≠ [] ∧ ∀ c ∈ ds, isDigit c = true

/-- The list does not begin with a digit (it may be empty). -/
def NoDigitAhead (cs : List Char) : Prop :=
  ∀ c ∈ cs.head?, isDigit c = false

instance (ds : List Char) : Decidable (IsLiteral ds) := by
  unfold IsLiteral; infer_instance

instance (cs : List Char) : Decidable (NoDigitAhead cs) := by
  unfold NoDigitAhead; infer_instance

/-- The `int64_t` the tokenizer reads from a run of decimal digits. -/
def literalValue (ds : List Char) : Int :=
  wrap64 (decimalValue ds)

/-- The accumulation `res = res * 10 + (c - '0')` over a run of digits. -/
def accumulate (res : Int) (ds : List Char) : Int :=
  ds.foldl (fun r c => wrap64 (wrap64 (r * 10) + ((c.toNat : Int) - 48))) res

/-- The tokenizer shows the tokens `toks` one `Consume` after the other, its
current token being the first of them, and then `End`. -/
def Shows : Tokenizer → List Token → Prop
  | t, [] => t.current = .End
  | t, tok :: rest => t.current = tok ∧ Shows t.Consume rest

/-- Reading the unread input `input` yields the tokens `toks`, then `End`. -/
def Lex (input : List Char) (toks : List Token) : Prop :=
  ∀ t : Tokenizer, t.in_ = input → Shows t.Consume toks

/-- Every constant of the tree is an `int64_t` value. -/
def Expression.WF : Expression → Prop
  | .Constant v _ => InInt64 v
  | .Operation _ l r _ => l.WF ∧ r.WF

/-- The member `number_` holds an `int64_t` value. -/
def Tokenizer.WF (t : Tokenizer) : Prop :=
  InInt64 t.number_

/-- The tokenizer `t'` reads the input of `t` followed by one `)`: either both show
the same token and `t'` has that `)` still unread, or `t` is at the end of its
input and `t'` shows the `)` or has read past it. -/
def ParenExt (t t' : Tokenizer) : Prop :=
  (t.current ≠ .End ∧ t'.current = t.current ∧ t'.in_ = t.in_ ++ [')']) ∨
  (t.current = .End ∧ t.in_ = [] ∧ t'.in_ = [] ∧
    (t'.current = .Symbol ')' ∨ t'.current = .End))

/-- The list begins with a digit. -/
def startsWithDigit : List Char → Bool
  | [] => false
  | c :: _ => isDigit c

/-- The list ends with a digit. -/
def endsWithDigit (cs : List Char) : Bool :=
  match cs.getLast? with
  | some d => isDigit d
  | none => false

/-- The input `s'` is `s` with one noise character inserted at a position that is
not strictly between two adjacent digits. -/
def NoiseInsert (s s' : List Char) : Prop :=
  ∃ pre post c, s = pre ++ post ∧ s' = pre ++ c :: post ∧ isNoise c = true ∧
    ¬ (endsWithDigit pre = true ∧ startsWithDigit post = true)

/-- The two tokenizers show the same token and their unread inputs are equal or
differ by one inserted noise character. -/
def NoiseRel (t t' : Tokenizer) : Prop :=
  t.current = t'.current ∧ (t.in_ = t'.in_ ∨ NoiseInsert t.in_ t'.in_)

/-- The depth of the tree: 1 for a constant. -/
def Expression.depth : Expression → Nat
  | .Constant _ _ => 1
  | .Operation _ l r _ => max l.depth r.depth + 1

/-- The members `l_` and `r_` of an `Operation`; a `Constant` has none. -/
def Expression.children : Expression → List Expression
  | .Constant _ _ => []
  | .Operation _ l r _ => [l, r]

/-- A tokenizer showing `End` has read all of its input, as after `Consume`. -/
def Tokenizer.Settled (t : Tokenizer) : Prop :=
  t.type_ = .kEnd → t.in_ = []

/-- The tokenizer `t'` reads the input of `t` followed by `x`: either both show
the same token and `t'` has `x` still to read after what `t` has, or `t` has
reached the end of its input inside a digit run, so that both show a number,
the one of `t'` possibly continued by digits of `x`. -/
def SuffixExt (x : List Char) (t t' : Tokenizer) : Prop :=
  (t'.in_ = t.in_ ++ x ∧ t'.current = t.current) ∨
  (t.in_ = [] ∧ ∃ n m, t.current = .Number n ∧ t'.current = .Number m)

/-- Fully parenthesised printing: a constant as the decimal digits of its value,
an operation as `(`, left operand, operator, right operand, `)`. -/
def render : Expression → List Char
  | .Constant v _ => Nat.toDigits 10 v.toNat
  | .Operation op l r _ => '(' :: (render l ++ op :: (render r ++ [')']))

/-- A tree of non-negated constants with values in `[0, 2^63)` and non-negated
operations with operators among `+ - * /`. -/
def Expression.isPlain : Expression → Bool
  | .Constant v n => !n && decide (0 ≤ v) && decide (v < 9223372036854775808)
  | .Operation op l r n =>
    !n && (op == '+' || op == '-' || op == '*' || op == '/') && l.isPlain && r.isPlain

/-! ## Machine integer lemmas -/

theorem wrap64_inInt64 (x : Int) : InInt64 (wrap64 x) := by
  unfold InInt64 wrap64; omega

theorem wrap64_of_inInt64 {x : Int} (h : InInt64 x) : wrap64 x = x := by
  unfold InInt64 at h; unfold wrap64; omega

theorem wrap64_wrap64 (x : Int) : wrap64 (wrap64 x) = wrap64 x :=
  wrap64_of_inInt64 (wrap64_inInt64 x)

theorem wrap64_add_left (x y : Int) : wrap64 (wrap64 x + y) = wrap64 (x + y) := by
  unfold wrap64; omega

theorem wrap64_add_right (x y : Int) : wrap64 (x + wrap64 y) = wrap64 (x + y) := by
  unfold wrap64; omega

theorem wrap64_sub_left (x y : Int) : wrap64 (wrap64 x - y) = wrap64 (x - y) := by
  unfold wrap64; omega

theorem wrap64_neg_wrap64 (x : Int) : wrap64 (-wrap64 x) = wrap64 (-x) := by
  unfold wrap64; omega

theorem wrap64_modEq (x : Int) : wrap64 x ≡ x [ZMOD 18446744073709551616] := by
  unfold wrap64 Int.ModEq; omega

theorem wrap64_eq_of_modEq {x y : Int} (h : x ≡ y [ZMOD 18446744073709551616]) :
    wrap64 x = wrap64 y := by
  unfold Int.ModEq at h; unfold wrap64; omega

theorem wrap64_mul_left (x y : Int) : wrap64 (wrap64 x * y) = wrap64 (x * y) :=
  wrap64_eq_of_modEq ((wrap64_modEq x).mul_right y)

theorem wrap64_mul_right (x y : Int) : wrap64 (x * wrap64 y) = wrap64 (x * y) :=
  wrap64_eq_of_modEq ((wrap64_modEq y).mul_left x)

/-! ## The parser sees a tokenizer through `current` and `Consume` only -/

theorem symbolIs_eq (t : Tokenizer) (c : Char) :
    t.symbolIs c = .ok (decide (t.current = .Symbol c)) := by
  unfold Tokenizer.symbolIs Tokenizer.GetType Tokenizer.GetSymbol Tokenizer.current
  cases h : t.type_ <;> simp
  rfl

theorem symbolIsEither_eq (t : Tokenizer) (c d : Char) :
    t.symbolIsEither c d = .ok (decide (t.current = .Symbol c ∨ t.current = .Symbol d)) := by
  unfold Tokenizer.symbolIsEither Tokenizer.GetType Tokenizer.GetSymbol Tokenizer.current
  cases h : t.type_ <;> simp
  by_cases h1 : t.symbol_ = c <;> simp [h1]
  rfl

theorem GetSymbol_of_current {t : Tokenizer} {c : Char} (h : t.current = .Symbol c) :
    t.GetSymbol = .ok c := by
  unfold Tokenizer.current at h
  unfold Tokenizer.GetSymbol
  cases h1 : t.type_ <;> simp_all

theorem GetNumber_of_current {t : Tokenizer} {n : Int} (h : t.current = .Number n) :
    t.GetNumber = .ok n := by
  unfold Tokenizer.current at h
  unfold Tokenizer.GetNumber
  cases h1 : t.type_ <;> simp_all

theorem GetType_eq_kNumber_iff (t : Tokenizer) :
    t.GetType = .kNumber ↔ ∃ n, t.current = .Number n := by
  unfold Tokenizer.current Tokenizer.GetType
  cases h1 : t.type_ <;> simp

theorem ReadExpression_succ (f : Nat) (t : Tokenizer) :
    ReadExpression (f + 1) t =
      match ReadTerm f t with
      | .ok (node, t1) => ReadExpressionLoop f node t1
      | .error e => .error e
      | .outOfFuel => .outOfFuel := by
  rw [ReadExpression]

theorem ReadTerm_succ (f : Nat) (t : Tokenizer) :
    ReadTerm (f + 1) t =
      match ReadFactor f t with
      | .ok (node, t1) => ReadTermLoop f node t1
      | .error e => .error e
      | .outOfFuel => .outOfFuel := by
  rw [ReadTerm]

theorem ReadExpressionLoop_succ (f : Nat) (node : Expression) (t : Tokenizer) :
    ReadExpressionLoop (f + 1) node t =
      match t.current with
      | .Symbol c =>
        if c = '+' ∨ c = '-' then
          match ReadTerm f t.Consume with
          | .ok (right, t1) => ReadExpressionLoop f (.Operation c node right false) t1
          | .error e => .error e
          | .outOfFuel => .outOfFuel
        else .ok (node, t)
      | _ => .ok (node, t) := by
  rw [ReadExpressionLoop, symbolIsEither_eq]
  cases h : t.current with
  | Number n => simp
  | End => simp
  | Symbol c =>
    by_cases hc : c = '+' ∨ c = '-'
    · simp [hc, GetSymbol_of_current h]
    · simp [hc]

theorem ReadTermLoop_succ (f : Nat) (node : Expression) (t : Tokenizer) :
    ReadTermLoop (f + 1) node t =
      match t.current with
      | .Symbol c =>
        if c = '*' ∨ c = '/' then
          match ReadFactor f t.Consume with
          | .ok (right, t1) => ReadTermLoop f (.Operation c node right false) t1
          | .error e => .error e
          | .outOfFuel => .outOfFuel
        else .ok (node, t)
      | _ => .ok (node, t) := by
  rw [ReadTermLoop, symbolIsEither_eq]
  cases h : t.current with
  | Number n => simp
  | End => simp
  | Symbol c =>
    by_cases hc : c = '*' ∨ c = '/'
    · simp [hc, GetSymbol_of_current h]
    · simp [hc]

theorem ReadFactor_succ (f : Nat) (t : Tokenizer) :
    ReadFactor (f + 1) t =
      match t.current with
      | .Number n => .ok (.Constant n false, t.Consume)
      | .End => .error .invalidFactor
      | .Symbol c =>
        if c = '-' then
          match t.Consume.current with
          | .Number n => .ok (.Constant n true, t.Consume.Consume)
          | .End => .error .invalidFactorMinus
          | .Symbol d =>
            if d = '(' then
              match ReadExpression f t.Consume.Consume with
              | .ok (res, t2) => .ok (res.ApplyMinus, t2.Consume)
              | .error e => .error e
              | .outOfFuel => .outOfFuel
            else .error .invalidFactorMinus
        else if c = '(' then
          match ReadExpression f t.Consume with
          | .ok (res, t2) => .ok (res, t2.Consume)
          | .error e => .error e
          | .outOfFuel => .outOfFuel
        else .error .invalidFactor := by
  rw [ReadFactor]
  simp only [symbolIs_eq]
  cases h : t.current with
  | Number n =>
    have h1 : t.GetType = .kNumber := (GetType_eq_kNumber_iff t).2 ⟨n, h⟩
    simp [h1, GetNumber_of_current h]
  | End =>
    have h1 : ¬ t.GetType = .kNumber := by
      rw [GetType_eq_kNumber_iff]; simp [h]
    simp [h1]
  | Symbol c =>
    have h1 : ¬ t.GetType = .kNumber := by
      rw [GetType_eq_kNumber_iff]; simp [h]
    by_cases hc : c = '-'
    · subst hc
      simp only [decide_True, if_true]
      cases h2 : t.Consume.current with
      | Number n =>
        have h3 : t.Consume.GetType = .kNumber := (GetType_eq_kNumber_iff _).2 ⟨n, h2⟩
        simp [h3, GetNumber_of_current h2, Expression.ApplyMinus]
      | End =>
        have h3 : ¬ t.Consume.GetType = .kNumber := by
          rw [GetType_eq_kNumber_iff]; simp [h2]
        simp [h3]
      | Symbol d =>
        have h3 : ¬ t.Consume.GetType = .kNumber := by
          rw [GetType_eq_kNumber_iff]; simp [h2]
        by_cases hd : d = '(' <;> simp [h3, hd]
    · by_cases hd : c = '(' <;> simp [h1, hc, hd]

/-! ## The recursion budget: more is never different, and `parseFuel` is enough -/

theorem consumeLoop_pending (t : Tokenizer) (cs : List Char) (b : Bool) (res : Int) :
    (t.consumeLoop cs b res).pending ≤ cs.length + (if b then 1 else 0) := by
  induction cs generalizing b res with
  | nil => cases b <;> simp [Tokenizer.consumeLoop, Tokenizer.pending]
  | cons c cs ih =>
    cases b
    · simp only [Tokenizer.consumeLoop]
      by_cases hd : isDigit c
      · have := ih true (wrap64 (wrap64 (res * 10) + ((c.toNat : Int) - 48)))
        simp [hd] at this ⊢; omega
      · by_cases hg : isGrammarSymbol c
        · simp [hd, hg, Tokenizer.pending]
        · have := ih false res
          simp [hd, hg] at this ⊢; omega
    · simp only [Tokenizer.consumeLoop]
      by_cases hd : isDigit c
      · have := ih true (wrap64 (wrap64 (res * 10) + ((c.toNat : Int) - 48)))
        simp [hd] at this ⊢; omega
      · simp [hd, Tokenizer.pending]

theorem Consume_pending (t : Tokenizer) : t.Consume.pending ≤ t.in_.length := by
  have := consumeLoop_pending t t.in_ false 0
  simpa [Tokenizer.Consume] using this

theorem in_length_le_pending (t : Tokenizer) : t.in_.length ≤ t.pending := by
  unfold Tokenizer.pending; omega

theorem pending_pos_of_current {t : Tokenizer} (h : t.current ≠ .End) :
    t.in_.length + 1 = t.pending := by
  unfold Tokenizer.current at h
  unfold Tokenizer.pending
  cases h1 : t.type_ <;> simp_all

theorem Consume_pending_lt {t : Tokenizer} (h : t.current ≠ .End) :
    t.Consume.pending + 1 ≤ t.pending := by
  have := Consume_pending t
  have := pending_pos_of_current h
  omega

theorem Consume_pending_le (t : Tokenizer) : t.Consume.pending ≤ t.pending := by
  have := Consume_pending t
  have := in_length_le_pending t
  omega

/-- One more unit of budget changes no result that the smaller budget reached. -/
theorem fuel_succ (f : Nat) :
    (∀ t, ReadFactor f t = .outOfFuel ∨ ReadFactor (f + 1) t = ReadFactor f t) ∧
    (∀ node t, ReadTermLoop f node t = .outOfFuel ∨
      ReadTermLoop (f + 1) node t = ReadTermLoop f node t) ∧
    (∀ t, ReadTerm f t = .outOfFuel ∨ ReadTerm (f + 1) t = ReadTerm f t) ∧
    (∀ node t, ReadExpressionLoop f node t = .outOfFuel ∨
      ReadExpressionLoop (f + 1) node t = ReadExpressionLoop f node t) ∧
    (∀ t, ReadExpression f t = .outOfFuel ∨ ReadExpression (f + 1) t = ReadExpression f t) := by
  induction f with
  | zero =>
    refine ⟨fun t => ?_, fun node t => ?_, fun t => ?_, fun node t => ?_, fun t => ?_⟩
    · left; rw [ReadFactor]
    · left; rw [ReadTermLoop]
    · left; rw [ReadTerm]
    · left; rw [ReadExpressionLoop]
    · left; rw [ReadExpression]
  | succ f ih =>
    obtain ⟨ihF, ihTL, ihT, ihEL, ihE⟩ := ih
    refine ⟨fun t => ?_, fun node t => ?_, fun t => ?_, fun node t => ?_, fun t => ?_⟩
    · rw [ReadFactor_succ (f + 1), ReadFactor_succ f]
      cases t.current with
      | Number n => right; rfl
      | End => right; rfl
      | Symbol c =>
        by_cases hc : c = '-'
        · simp only [hc, if_true]
          cases t.Consume.current with
          | Number n => right; rfl
          | End => right; rfl
          | Symbol d =>
            by_cases hd : d = '('
            · simp only [hd, if_true]
              rcases ihE t.Consume.Consume with h | h
              · left; rw [h]
              · right; rw [h]
            · simp [hd]
        · by_cases hd : c = '('
          · subst hd
            simp only [show ¬ ('(' = '-') by decide, if_true, if_false]
            rcases ihE t.Consume with h | h
            · left; rw [h]
            · right; rw [h]
          · simp [hc, hd]
    · rw [ReadTermLoop_succ (f + 1), ReadTermLoop_succ f]
      cases t.current with
      | Number n => right; rfl
      | End => right; rfl
      | Symbol c =>
        by_cases hc : c = '*' ∨ c = '/'
        · simp only [hc, if_true]
          rcases ihF t.Consume with h | h
          · left; rw [h]
          · rw [h]
            cases ReadFactor f t.Consume with
            | ok p => exact ihTL _ _
            | error e => right; rfl
            | outOfFuel => right; rfl
        · simp [hc]
    · rw [ReadTerm_succ (f + 1), ReadTerm_succ f]
      rcases ihF t with h | h
      · left; rw [h]
      · rw [h]
        cases ReadFactor f t with
        | ok p => exact ihTL _ _
        | error e => right; rfl
        | outOfFuel => right; rfl
    · rw [ReadExpressionLoop_succ (f + 1), ReadExpressionLoop_succ f]
      cases t.current with
      | Number n => right; rfl
      | End => right; rfl
      | Symbol c =>
        by_cases hc : c = '+' ∨ c = '-'
        · simp only [hc, if_true]
          rcases ihT t.Consume with h | h
          · left; rw [h]
          · rw [h]
            cases ReadTerm f t.Consume with
            | ok p => exact ihEL _ _
            | error e => right; rfl
            | outOfFuel => right; rfl
        · simp [hc]
    · rw [ReadExpression_succ (f + 1), ReadExpression_succ f]
      rcases ihT t with h | h
      · left; rw [h]
      · rw [h]
        cases ReadTerm f t with
        | ok p => exact ihEL _ _
        | error e => right; rfl
        | outOfFuel => right; rfl

theorem fuel_mono_of_succ {α : Type} (g : Nat → Result α)
    (hs : ∀ f, g f = .outOfFuel ∨ g (f + 1) = g f) {f f' : Nat}
    (h : g f ≠ .outOfFuel) (hle : f ≤ f') : g f' = g f := by
  induction hle with
  | refl => rfl
  | step _ ih =>
    rcases hs _ with h1 | h1
    · rw [ih] at h1; exact absurd h1 h
    · rw [h1, ih]

theorem ReadExpression_fuel_mono {f f' : Nat} {t : Tokenizer}
    (h : ReadExpression f t ≠ .outOfFuel) (hle : f ≤ f') :
    ReadExpression f' t = ReadExpression f t :=
  fuel_mono_of_succ (fun n => ReadExpression n t) (fun n => (fuel_succ n).2.2.2.2 t) h hle

/-- A successful parsing function has consumed at least one token (a loop:
possibly none). -/
theorem pending_decreases (f : Nat) :
    (∀ t e u, ReadFactor f t = .ok (e, u) → u.pending + 1 ≤ t.pending) ∧
    (∀ node t e u, ReadTermLoop f node t = .ok (e, u) → u.pending ≤ t.pending) ∧
    (∀ t e u, ReadTerm f t = .ok (e, u) → u.pending + 1 ≤ t.pending) ∧
    (∀ node t e u, ReadExpressionLoop f node t = .ok (e, u) → u.pending ≤ t.pending) ∧
    (∀ t e u, ReadExpression f t = .ok (e, u) → u.pending + 1 ≤ t.pending) := by
  induction f with
  | zero =>
    refine ⟨fun t e u h => ?_, fun node t e u h => ?_, fun t e u h => ?_,
      fun node t e u h => ?_, fun t e u h => ?_⟩
    · rw [ReadFactor] at h; cases h
    · rw [ReadTermLoop] at h; cases h
    · rw [ReadTerm] at h; cases h
    · rw [ReadExpressionLoop] at h; cases h
    · rw [ReadExpression] at h; cases h
  | succ f ih =>
    obtain ⟨ihF, ihTL, ihT, ihEL, ihE⟩ := ih
    refine ⟨fun t e u h => ?_, fun node t e u h => ?_, fun t e u h => ?_,
      fun node t e u h => ?_, fun t e u h => ?_⟩
    · rw [ReadFactor_succ] at h
      cases hc : t.current with
      | Number n =>
        simp only [hc, Result.ok.injEq, Prod.mk.injEq] at h
        rw [← h.2]
        exact Consume_pending_lt (by simp [hc])
      | End => simp [hc] at h
      | Symbol c =>
        have h0 : t.Consume.pending + 1 ≤ t.pending := Consume_pending_lt (by simp [hc])
        simp only [hc] at h
        by_cases hm : c = '-'
        · simp only [hm, if_true] at h
          cases hc1 : t.Consume.current with
          | Number n =>
            simp only [hc1, Result.ok.injEq, Prod.mk.injEq] at h
            rw [← h.2]
            have := Consume_pending_le t.Consume
            omega
          | End => simp [hc1] at h
          | Symbol d =>
            simp only [hc1] at h
            by_cases hd : d = '('
            · simp only [hd, if_true] at h
              cases hr : ReadExpression f t.Consume.Consume with
              | ok p =>
                obtain ⟨res, t2⟩ := p
                simp only [hr, Result.ok.injEq, Prod.mk.injEq] at h
                rw [← h.2]
                have := ihE _ _ _ hr
                have := Consume_pending_le t.Consume
                have := Consume_pending_le t2
                omega
              | error e => simp [hr] at h
              | outOfFuel => simp [hr] at h
            · simp [hd] at h
        · by_cases hd : c = '('
          · subst hd
            simp only [show ¬ ('(' = '-') by decide, if_true, if_false] at h
            cases hr : ReadExpression f t.Consume with
            | ok p =>
              obtain ⟨res, t2⟩ := p
              simp only [hr, Result.ok.injEq, Prod.mk.injEq] at h
              rw [← h.2]
              have := ihE _ _ _ hr
              have := Consume_pending_le t2
              omega
            | error e => simp [hr] at h
            | outOfFuel => simp [hr] at h
          · simp [hm, hd] at h
    · rw [ReadTermLoop_succ] at h
      cases hc : t.current with
      | Number n => simp only [hc, Result.ok.injEq, Prod.mk.injEq] at h; rw [← h.2]
      | End => simp only [hc, Result.ok.injEq, Prod.mk.injEq] at h; rw [← h.2]
      | Symbol c =>
        have h0 : t.Consume.pending + 1 ≤ t.pending := Consume_pending_lt (by simp [hc])
        simp only [hc] at h
        by_cases hm : c = '*' ∨ c = '/'
        · simp only [hm, if_true] at h
          cases hr : ReadFactor f t.Consume with
          | ok p =>
            obtain ⟨right, t1⟩ := p
            simp only [hr] at h
            have := ihF _ _ _ hr
            have := ihTL _ _ _ _ h
            omega
          | error e => simp [hr] at h
          | outOfFuel => simp [hr] at h
        · simp only [hm, if_false, Result.ok.injEq, Prod.mk.injEq] at h; rw [← h.2]
    · rw [ReadTerm_succ] at h
      cases hr : ReadFactor f t with
      | ok p =>
        obtain ⟨node, t1⟩ := p
        simp only [hr] at h
        have := ihF _ _ _ hr
        have := ihTL _ _ _ _ h
        omega
      | error e => simp [hr] at h
      | outOfFuel => simp [hr] at h
    · rw [ReadExpressionLoop_succ] at h
      cases hc : t.current with
      | Number n => simp only [hc, Result.ok.injEq, Prod.mk.injEq] at h; rw [← h.2]
      | End => simp only [hc, Result.ok.injEq, Prod.mk.injEq] at h; rw [← h.2]
      | Symbol c =>
        have h0 : t.Consume.pending + 1 ≤ t.pending := Consume_pending_lt (by simp [hc])
        simp only [hc] at h
        by_cases hm : c = '+' ∨ c = '-'
        · simp only [hm, if_true] at h
          cases hr : ReadTerm f t.Consume with
          | ok p =>
            obtain ⟨right, t1⟩ := p
            simp only [hr] at h
            have := ihT _ _ _ hr
            have := ihEL _ _ _ _ h
            omega
          | error e => simp [hr] at h
          | outOfFuel => simp [hr] at h
        · simp only [hm, if_false, Result.ok.injEq, Prod.mk.injEq] at h; rw [← h.2]
    · rw [ReadExpression_succ] at h
      cases hr : ReadTerm f t with
      | ok p =>
        obtain ⟨node, t1⟩ := p
        simp only [hr] at h
        have := ihT _ _ _ hr
        have := ihEL _ _ _ _ h
        omega
      | error e => simp [hr] at h
      | outOfFuel => simp [hr] at h

/-- Three levels of calls for every token still to come are a sufficient budget. -/
theorem fuel_enough (f : Nat) :
    (∀ t, 3 * t.pending + 1 ≤ f → ReadFactor f t ≠ .outOfFuel) ∧
    (∀ node t, 3 * t.pending + 1 ≤ f → ReadTermLoop f node t ≠ .outOfFuel) ∧
    (∀ t, 3 * t.pending + 2 ≤ f → ReadTerm f t ≠ .outOfFuel) ∧
    (∀ node t, 3 * t.pending + 1 ≤ f → ReadExpressionLoop f node t ≠ .outOfFuel) ∧
    (∀ t, 3 * t.pending + 3 ≤ f → ReadExpression f t ≠ .outOfFuel) := by
  induction f with
  | zero =>
    refine ⟨fun t h => ?_, fun node t h => ?_, fun t h => ?_, fun node t h => ?_, fun t h => ?_⟩
      <;> omega
  | succ f ih =>
    obtain ⟨ihF, ihTL, ihT, ihEL, ihE⟩ := ih
    obtain ⟨dF, -, dT, -, -⟩ := pending_decreases f
    refine ⟨fun t h => ?_, fun node t h => ?_, fun t h => ?_, fun node t h => ?_, fun t h => ?_⟩
    · rw [ReadFactor_succ]
      cases hc : t.current with
      | Number n => simp
      | End => simp
      | Symbol c =>
        have h0 : t.Consume.pending + 1 ≤ t.pending := Consume_pending_lt (by simp [hc])
        have h1 := Consume_pending_le t.Consume
        by_cases hm : c = '-'
        · simp only [hm, if_true]
          cases hc1 : t.Consume.current with
          | Number n => simp
          | End => simp
          | Symbol d =>
            by_cases hd : d = '('
            · simp only [hd, if_true]
              have := ihE t.Consume.Consume (by omega)
              cases hr : ReadExpression f t.Consume.Consume with
              | ok p => simp
              | error e => simp
              | outOfFuel => exact absurd hr this
            · simp [hd]
        · by_cases hd : c = '('
          · subst hd
            simp only [show ¬ ('(' = '-') by decide, if_true, if_false]
            have := ihE t.Consume (by omega)
            cases hr : ReadExpression f t.Consume with
            | ok p => simp
            | error e => simp
            | outOfFuel => exact absurd hr this
          · simp [hm, hd]
    · rw [ReadTermLoop_succ]
      cases hc : t.current with
      | Number n => simp
      | End => simp
      | Symbol c =>
        have h0 : t.Consume.pending + 1 ≤ t.pending := Consume_pending_lt (by simp [hc])
        by_cases hm : c = '*' ∨ c = '/'
        · simp only [hm, if_true]
          have := ihF t.Consume (by omega)
          cases hr : ReadFactor f t.Consume with
          | ok p =>
            obtain ⟨right, t1⟩ := p
            have := dF _ _ _ hr
            exact ihTL _ _ (by omega)
          | error e => simp
          | outOfFuel => exact absurd hr this
        · simp [hm]
    · rw [ReadTerm_succ]
      have := ihF t (by omega)
      cases hr : ReadFactor f t with
      | ok p =>
        obtain ⟨node, t1⟩ := p
        have := dF _ _ _ hr
        exact ihTL _ _ (by omega)
      | error e => simp
      | outOfFuel => exact absurd hr this
    · rw [ReadExpressionLoop_succ]
      cases hc : t.current with
      | Number n => simp
      | End => simp
      | Symbol c =>
        have h0 : t.Consume.pending + 1 ≤ t.pending := Consume_pending_lt (by simp [hc])
        by_cases hm : c = '+' ∨ c = '-'
        · simp only [hm, if_true]
          have := ihT t.Consume (by omega)
          cases hr : ReadTerm f t.Consume with
          | ok p =>
            obtain ⟨right, t1⟩ := p
            have := dT _ _ _ hr
            exact ihEL _ _ (by omega)
          | error e => simp
          | outOfFuel => exact absurd hr this
        · simp [hm]
    · rw [ReadExpression_succ]
      have := ihT t (by omega)
      cases hr : ReadTerm f t with
      | ok p =>
        obtain ⟨node, t1⟩ := p
        have := dT _ _ _ hr
        exact ihEL _ _ (by omega)
      | error e => simp
      | outOfFuel => exact absurd hr this

theorem parseFuel_enough (t : Tokenizer) : 3 * t.pending + 3 ≤ parseFuel t := by
  unfold parseFuel Tokenizer.pending
  split <;> omega

theorem ParseExpression_ne_outOfFuel (t : Tokenizer) : ParseExpression t ≠ .outOfFuel :=
  (fuel_enough _).2.2.2.2 t (parseFuel_enough t)

/-- Whatever budget reaches a result, `ParseExpression` returns that result. -/
theorem ParseExpression_eq_of_fuel (f : Nat) {t : Tokenizer}
    (h : ReadExpression f t ≠ .outOfFuel) : ParseExpression t = ReadExpression f t := by
  unfold ParseExpression
  rcases Nat.le_total f (parseFuel t) with hle | hle
  · exact ReadExpression_fuel_mono h hle
  · exact (ReadExpression_fuel_mono (ParseExpression_ne_outOfFuel t) hle).symm

/-! ## Simulation: the parser cannot tell apart tokenizers that show it the same tokens -/

theorem parse_sim {R : Tokenizer → Tokenizer → Prop} (hR : ParserSim R) (f : Nat) :
    (∀ t t', R t t' → ResultSim R (ReadFactor f t) (ReadFactor f t')) ∧
    (∀ node t t', R t t' → ResultSim R (ReadTermLoop f node t) (ReadTermLoop f node t')) ∧
    (∀ t t', R t t' → ResultSim R (ReadTerm f t) (ReadTerm f t')) ∧
    (∀ node t t', R t t' →
      ResultSim R (ReadExpressionLoop f node t) (ReadExpressionLoop f node t')) ∧
    (∀ t t', R t t' → ResultSim R (ReadExpression f t) (ReadExpression f t')) := by
  induction f with
  | zero =>
    refine ⟨fun t t' h => ?_, fun node t t' h => ?_, fun t t' h => ?_,
      fun node t t' h => ?_, fun t t' h => ?_⟩
    · rw [ReadFactor, ReadFactor]; trivial
    · rw [ReadTermLoop, ReadTermLoop]; trivial
    · rw [ReadTerm, ReadTerm]; trivial
    · rw [ReadExpressionLoop, ReadExpressionLoop]; trivial
    · rw [ReadExpression, ReadExpression]; trivial
  | succ f ih =>
    obtain ⟨ihF, ihTL, ihT, ihEL, ihE⟩ := ih
    refine ⟨fun t t' h => ?_, fun node t t' h => ?_, fun t t' h => ?_,
      fun node t t' h => ?_, fun t t' h => ?_⟩
    · rw [ReadFactor_succ, ReadFactor_succ]
      rcases hR.look h with heq | ⟨hE, hP⟩
      · rw [← heq]
        cases hc : t.current with
        | Number n => exact ⟨rfl, hR.consume h⟩
        | End => exact rfl
        | Symbol c =>
          by_cases hm : c = '-'
          · simp only [hm, if_true]
            rcases hR.look (hR.consume h) with heq1 | ⟨hE1, hP1⟩
            · rw [← heq1]
              cases hc1 : t.Consume.current with
              | Number n => exact ⟨rfl, hR.consume (hR.consume h)⟩
              | End => exact rfl
              | Symbol d =>
                by_cases hd : d = '('
                · simp only [hd, if_true]
                  have := ihE _ _ (hR.consume (hR.consume h))
                  revert this
                  cases ReadExpression f t.Consume.Consume <;>
                    cases ReadExpression f t'.Consume.Consume <;>
                    simp only [ResultSim, imp_self, false_implies]
                  rintro ⟨h1, h2⟩
                  exact ⟨by rw [h1], hR.consume h2⟩
                · simp only [hd, if_false]; exact rfl
            · rw [hE1, hP1]
              simp only [show ¬ (')' = '(') by decide, if_false]
              exact rfl
          · by_cases hd : c = '('
            · subst hd
              simp only [show ¬ ('(' = '-') by decide, if_true, if_false]
              have := ihE _ _ (hR.consume h)
              revert this
              cases ReadExpression f t.Consume <;>
                cases ReadExpression f t'.Consume <;>
                simp only [ResultSim, imp_self, false_implies]
              rintro ⟨h1, h2⟩
              exact ⟨h1, hR.consume h2⟩
            · simp only [hm, hd, if_false]; exact rfl
      · rw [hE, hP]
        simp only [show ¬ (')' = '(') by decide, show ¬ (')' = '-') by decide, if_false]
        exact rfl
    · rw [ReadTermLoop_succ, ReadTermLoop_succ]
      rcases hR.look h with heq | ⟨hE, hP⟩
      · rw [← heq]
        cases hc : t.current with
        | Number n => exact ⟨rfl, h⟩
        | End => exact ⟨rfl, h⟩
        | Symbol c =>
          by_cases hm : c = '*' ∨ c = '/'
          · simp only [hm, if_true]
            have := ihF _ _ (hR.consume h)
            revert this
            cases ReadFactor f t.Consume <;> cases ReadFactor f t'.Consume <;>
              simp only [ResultSim, imp_self, false_implies]
            rintro ⟨h1, h2⟩
            rw [h1]
            exact ihTL _ _ _ h2
          · simp only [hm, if_false]; exact ⟨rfl, h⟩
      · rw [hE, hP]
        simp only [show ¬ (')' = '*' ∨ ')' = '/') by decide, if_false]
        exact ⟨rfl, h⟩
    · rw [ReadTerm_succ, ReadTerm_succ]
      have := ihF _ _ h
      revert this
      cases ReadFactor f t <;> cases ReadFactor f t' <;>
        simp only [ResultSim, imp_self, false_implies]
      rintro ⟨h1, h2⟩
      rw [h1]
      exact ihTL _ _ _ h2
    · rw [ReadExpressionLoop_succ, ReadExpressionLoop_succ]
      rcases hR.look h with heq | ⟨hE, hP⟩
      · rw [← heq]
        cases hc : t.current with
        | Number n => exact ⟨rfl, h⟩
        | End => exact ⟨rfl, h⟩
        | Symbol c =>
          by_cases hm : c = '+' ∨ c = '-'
          · simp only [hm, if_true]
            have := ihT _ _ (hR.consume h)
            revert this
            cases ReadTerm f t.Consume <;> cases ReadTerm f t'.Consume <;>
              simp only [ResultSim, imp_self, false_implies]
            rintro ⟨h1, h2⟩
            rw [h1]
            exact ihEL _ _ _ h2
          · simp only [hm, if_false]; exact ⟨rfl, h⟩
      · rw [hE, hP]
        simp only [show ¬ (')' = '+' ∨ ')' = '-') by decide, if_false]
        exact ⟨rfl, h⟩
    · rw [ReadExpression_succ, ReadExpression_succ]
      have := ihT _ _ h
      revert this
      cases ReadTerm f t <;> cases ReadTerm f t' <;>
        simp only [ResultSim, imp_self, false_implies]
      rintro ⟨h1, h2⟩
      rw [h1]
      exact ihEL _ _ _ h2

/-! ## What `Consume` reads: digit runs, grammar symbols, noise -/

theorem isDigit_iff (c : Char) : isDigit c = true ↔ 48 ≤ c.toNat ∧ c.toNat ≤ 57 := by
  unfold isDigit
  simp only [Bool.and_eq_true, decide_eq_true_eq]
  rfl

theorem not_isGrammarSymbol_of_isDigit {c : Char} (h : isDigit c = true) :
    isGrammarSymbol c = false := by
  rw [isDigit_iff] at h
  unfold isGrammarSymbol
  simp only [Bool.or_eq_false_iff, beq_eq_false_iff_ne, ne_eq]
  refine ⟨⟨⟨⟨⟨?_, ?_⟩, ?_⟩, ?_⟩, ?_⟩, ?_⟩ <;> (rintro rfl; revert h; decide)

theorem accumulate_eq (ds : List Char) (hd : ∀ c ∈ ds, isDigit c = true) (res : Int) (acc : Nat)
    (h : wrap64 res = wrap64 acc) :
    wrap64 (accumulate res ds) =
      wrap64 ((ds.foldl (fun a c => a * 10 + (c.toNat - 48)) acc : Nat) : Int) := by
  induction ds generalizing res acc with
  | nil => simpa [accumulate] using h
  | cons c cs ih =>
    simp only [accumulate, List.foldl_cons]
    have hc := (isDigit_iff c).1 (hd c (List.mem_cons_self _ _))
    refine ih (fun x hx => hd x (List.mem_cons_of_mem _ hx)) _ _ ?_
    rw [wrap64_wrap64, wrap64_add_left]
    have e : ((acc * 10 + (c.toNat - 48) : Nat) : Int) = (acc : Int) * 10 + ((c.toNat : Int) - 48) := by
      omega
    rw [e]
    unfold wrap64 at h ⊢
    omega

theorem accumulate_inInt64 (ds : List Char) (res : Int) (h : InInt64 res) :
    InInt64 (accumulate res ds) := by
  induction ds generalizing res with
  | nil => simpa [accumulate] using h
  | cons c cs ih =>
    simp only [accumulate, List.foldl_cons]
    exact ih _ (wrap64_inInt64 _)

theorem accumulate_zero {ds : List Char} (hd : ∀ c ∈ ds, isDigit c = true) :
    accumulate 0 ds = wrap64 (decimalValue ds) := by
  have h1 := accumulate_eq ds hd 0 0 rfl
  rw [wrap64_of_inInt64 (accumulate_inInt64 ds 0 (by decide))] at h1
  exact h1

theorem consumeLoop_digits (t : Tokenizer) (ds rest : List Char)
    (hd : ∀ c ∈ ds, isDigit c = true) (hr : NoDigitAhead rest) (res : Int) :
    t.consumeLoop (ds ++ rest) true res =
      { t with in_ := rest, type_ := .kNumber, number_ := accumulate res ds } := by
  induction ds generalizing res with
  | nil =>
    cases rest with
    | nil => simp [Tokenizer.consumeLoop, accumulate]
    | cons c cs =>
      have : isDigit c = false := hr c (by simp)
      simp [Tokenizer.consumeLoop, accumulate, this]
  | cons c cs ih =>
    have hc : isDigit c = true := hd c (List.mem_cons_self _ _)
    rw [List.cons_append, Tokenizer.consumeLoop]
    simp only [hc, if_true]
    rw [ih (fun x hx => hd x (List.mem_cons_of_mem _ hx))]
    simp [accumulate]

theorem consumeLoop_noise (t : Tokenizer) (ns rest : List Char)
    (hn : ∀ c ∈ ns, isNoise c = true) (res : Int) :
    t.consumeLoop (ns ++ rest) false res = t.consumeLoop rest false res := by
  induction ns with
  | nil => rfl
  | cons c cs ih =>
    have hc := hn c (List.mem_cons_self _ _)
    unfold isNoise at hc
    simp only [Bool.and_eq_true, Bool.not_eq_true'] at hc
    rw [List.cons_append, Tokenizer.consumeLoop]
    simp only [hc.1, hc.2, Bool.false_eq_true, if_false, Bool.not_false, if_true]
    exact ih (fun x hx => hn x (List.mem_cons_of_mem _ hx))

/-- Reading a literal, after any noise: `Consume` yields its value as a `Number`
and stops right after the run of digits. -/
theorem Consume_literal (t : Tokenizer) (ns ds rest : List Char)
    (hn : ∀ c ∈ ns, isNoise c = true) (hl : IsLiteral ds)
    (hr : NoDigitAhead rest) (hin : t.in_ = ns ++ (ds ++ rest)) :
    t.Consume = { t with in_ := rest, type_ := .kNumber, number_ := wrap64 (decimalValue ds) } := by
  obtain ⟨hne, hd⟩ := hl
  unfold Tokenizer.Consume
  rw [hin, consumeLoop_noise t ns _ hn]
  cases ds with
  | nil => exact absurd rfl hne
  | cons c cs =>
    have hc : isDigit c = true := hd c (List.mem_cons_self _ _)
    rw [List.cons_append, Tokenizer.consumeLoop]
    simp only [hc, if_true, Bool.false_eq_true, if_false]
    rw [consumeLoop_digits t cs rest (fun x hx => hd x (List.mem_cons_of_mem _ hx)) hr]
    rw [← accumulate_zero hd]
    simp [accumulate]

/-- Reading a grammar symbol, after any noise. -/
theorem Consume_symbol (t : Tokenizer) (ns : List Char) (c : Char) (rest : List Char)
    (hn : ∀ c ∈ ns, isNoise c = true)
    (hc : isGrammarSymbol c = true) (hin : t.in_ = ns ++ c :: rest) :
    t.Consume = { t with in_ := rest, type_ := .kSymbol, symbol_ := c } := by
  have hd : isDigit c = false := by
    cases h : isDigit c
    · rfl
    · rw [not_isGrammarSymbol_of_isDigit h] at hc; cases hc
  unfold Tokenizer.Consume
  rw [hin, consumeLoop_noise t ns _ hn]
  simp [Tokenizer.consumeLoop, hd, hc]

/-- Reading the end of the input, after any noise. -/
theorem Consume_end (t : Tokenizer) (ns : List Char)
    (hn : ∀ c ∈ ns, isNoise c = true) (hin : t.in_ = ns) :
    t.Consume = { t with in_ := [], type_ := .kEnd } := by
  unfold Tokenizer.Consume
  have := consumeLoop_noise t ns [] hn 0
  rw [List.append_nil] at this
  rw [hin, this]
  simp [Tokenizer.consumeLoop]

/-! ## Parsing steps on a known current token -/

theorem ReadFactor_number {t : Tokenizer} {n : Int} (f : Nat) (h : t.current = .Number n) :
    ReadFactor (f + 1) t = .ok (.Constant n false, t.Consume) := by
  rw [ReadFactor_succ, h]

theorem ReadFactor_paren {t : Tokenizer} (f : Nat) (h : t.current = .Symbol '(') :
    ReadFactor (f + 1) t =
      match ReadExpression f t.Consume with
      | .ok (res, t2) => .ok (res, t2.Consume)
      | .error e => .error e
      | .outOfFuel => .outOfFuel := by
  rw [ReadFactor_succ, h]
  simp

theorem ReadTermLoop_op {t : Tokenizer} {c : Char} (f : Nat) (node : Expression)
    (h : t.current = .Symbol c) (hc : c = '*' ∨ c = '/') :
    ReadTermLoop (f + 1) node t =
      match ReadFactor f t.Consume with
      | .ok (right, t1) => ReadTermLoop f (.Operation c node right false) t1
      | .error e => .error e
      | .outOfFuel => .outOfFuel := by
  rw [ReadTermLoop_succ, h]
  simp [hc]

theorem ReadTermLoop_stop {t : Tokenizer} (f : Nat) (node : Expression)
    (h : t.current ≠ .Symbol '*' ∧ t.current ≠ .Symbol '/') :
    ReadTermLoop (f + 1) node t = .ok (node, t) := by
  rw [ReadTermLoop_succ]
  cases hc : t.current with
  | Number n => rfl
  | End => rfl
  | Symbol c =>
    rw [hc] at h
    have : ¬ (c = '*' ∨ c = '/') := by
      rintro (rfl | rfl)
      · exact h.1 rfl
      · exact h.2 rfl
    simp [this]

theorem ReadExpressionLoop_op {t : Tokenizer} {c : Char} (f : Nat) (node : Expression)
    (h : t.current = .Symbol c) (hc : c = '+' ∨ c = '-') :
    ReadExpressionLoop (f + 1) node t =
      match ReadTerm f t.Consume with
      | .ok (right, t1) => ReadExpressionLoop f (.Operation c node right false) t1
      | .error e => .error e
      | .outOfFuel => .outOfFuel := by
  rw [ReadExpressionLoop_succ, h]
  simp [hc]

theorem ReadExpressionLoop_stop {t : Tokenizer} (f : Nat) (node : Expression)
    (h : t.current ≠ .Symbol '+' ∧ t.current ≠ .Symbol '-') :
    ReadExpressionLoop (f + 1) node t = .ok (node, t) := by
  rw [ReadExpressionLoop_succ]
  cases hc : t.current with
  | Number n => rfl
  | End => rfl
  | Symbol c =>
    rw [hc] at h
    have : ¬ (c = '+' ∨ c = '-') := by
      rintro (rfl | rfl)
      · exact h.1 rfl
      · exact h.2 rfl
    simp [this]

/-- The outcome of `EvaluateExpression` once the outcome of the parse is known
for some budget. -/
theorem EvaluateExpression_of_parse {input : List Char} {f : Nat} {e : Expression}
    {u : Tokenizer} (h : ReadExpression f (Tokenizer.new input) = .ok (e, u)) :
    EvaluateExpression input =
      match e.Evaluate with
      | .ok v => .ok v
      | .error err => .error err := by
  unfold EvaluateExpression
  rw [ParseExpression_eq_of_fuel f (by rw [h]; simp), h]

theorem EvaluateExpression_ok {input : List Char} {f : Nat} {e : Expression}
    {u : Tokenizer} {v : Int} (h : ReadExpression f (Tokenizer.new input) = .ok (e, u))
    (hv : e.Evaluate = .ok v) : EvaluateExpression input = .ok v := by
  rw [EvaluateExpression_of_parse h, hv]

theorem EvaluateExpression_eval_error {input : List Char} {f : Nat} {e : Expression}
    {u : Tokenizer} {err : Error} (h : ReadExpression f (Tokenizer.new input) = .ok (e, u))
    (hv : e.Evaluate = .error err) : EvaluateExpression input = .error err := by
  rw [EvaluateExpression_of_parse h, hv]

/-- A tokenizer whose current token is a number followed by nothing parses to
that constant. -/
theorem ReadExpression_single {t : Tokenizer} {n : Int} (f : Nat)
    (h : t.current = .Number n) (hin : t.in_ = []) :
    ReadExpression (f + 3) t = .ok (.Constant n false, t.Consume) := by
  have hE : t.Consume.current = .End := by
    rw [Consume_end t [] (by simp) hin]; rfl
  rw [ReadExpression_succ, ReadTerm_succ, ReadFactor_number _ h]
  simp only []
  rw [ReadTermLoop_stop _ _ (by simp [hE])]
  simp only []
  rw [ReadExpressionLoop_stop _ _ (by simp [hE])]

/-! ## Token sequences -/

theorem Lex.new {input : List Char} {toks : List Token} (h : Lex input toks) :
    Shows (Tokenizer.new input) toks :=
  h _ rfl

theorem Lex.end_ {ns : List Char} (hn : ∀ c ∈ ns, isNoise c = true) : Lex ns [] := by
  intro t ht
  rw [Consume_end t ns hn ht]
  rfl

theorem Lex.literal {ns ds rest : List Char} {toks : List Token}
    (hn : ∀ c ∈ ns, isNoise c = true) (hl : IsLiteral ds) (hr : NoDigitAhead rest)
    (h : Lex rest toks) :
    Lex (ns ++ (ds ++ rest)) (.Number (wrap64 (decimalValue ds)) :: toks) := by
  intro t ht
  rw [Consume_literal t ns ds rest hn hl hr ht]
  exact ⟨rfl, h _ rfl⟩

theorem Lex.symbol {ns : List Char} {c : Char} {rest : List Char} {toks : List Token}
    (hn : ∀ c ∈ ns, isNoise c = true) (hc : isGrammarSymbol c = true) (h : Lex rest toks) :
    Lex (ns ++ c :: rest) (.Symbol c :: toks) := by
  intro t ht
  rw [Consume_symbol t ns c rest hn hc ht]
  exact ⟨rfl, h _ rfl⟩

theorem noDigitAhead_nil : NoDigitAhead [] := by
  simp [NoDigitAhead]

theorem noDigitAhead_cons {c : Char} (cs : List Char) (h : isDigit c = false) :
    NoDigitAhead (c :: cs) := by
  simpa [NoDigitAhead] using h

/-! ## Parsing short token sequences -/

/-- The tokens `a` parse to the constant. -/
theorem parse_single {t : Tokenizer} {a : Int} (f : Nat) (h : Shows t [.Number a]) :
    ∃ u, ReadExpression (f + 1 + 1 + 1) t = .ok (.Constant a false, u) := by
  obtain ⟨h0, h1⟩ := h
  simp only [Shows] at h1
  refine ⟨t.Consume, ?_⟩
  simp [ReadExpression_succ, ReadTerm_succ, ReadFactor_succ, ReadTermLoop_succ,
    ReadExpressionLoop_succ, h0, h1]

/-- The tokens `a o1 b o2 c` with two additive operators parse to `(a o1 b) o2 c`. -/
theorem parse_additive_chain {t : Tokenizer} {a b c : Int} {o1 o2 : Char} (f : Nat)
    (ho1 : o1 = '+' ∨ o1 = '-') (ho2 : o2 = '+' ∨ o2 = '-')
    (h : Shows t [.Number a, .Symbol o1, .Number b, .Symbol o2, .Number c]) :
    ∃ u, ReadExpression (f + 1 + 1 + 1 + 1 + 1) t =
      .ok (.Operation o2 (.Operation o1 (.Constant a false) (.Constant b false) false)
        (.Constant c false) false, u) := by
  obtain ⟨h0, h1, h2, h3, h4, h5⟩ := h
  simp only [Shows] at h5
  refine ⟨t.Consume.Consume.Consume.Consume.Consume, ?_⟩
  have n1 : ¬ (o1 = '*' ∨ o1 = '/') := by rcases ho1 with rfl | rfl <;> decide
  have n2 : ¬ (o2 = '*' ∨ o2 = '/') := by rcases ho2 with rfl | rfl <;> decide
  simp [ReadExpression_succ, ReadTerm_succ, ReadFactor_succ, ReadTermLoop_succ,
    ReadExpressionLoop_succ, h0, h1, h2, h3, h4, h5, ho1, ho2, n1, n2]

/-- The tokens `a o1 b o2 c` with two multiplicative operators parse to `(a o1 b) o2 c`. -/
theorem parse_multiplicative_chain {t : Tokenizer} {a b c : Int} {o1 o2 : Char} (f : Nat)
    (ho1 : o1 = '*' ∨ o1 = '/') (ho2 : o2 = '*' ∨ o2 = '/')
    (h : Shows t [.Number a, .Symbol o1, .Number b, .Symbol o2, .Number c]) :
    ∃ u, ReadExpression (f + 1 + 1 + 1 + 1 + 1) t =
      .ok (.Operation o2 (.Operation o1 (.Constant a false) (.Constant b false) false)
        (.Constant c false) false, u) := by
  obtain ⟨h0, h1, h2, h3, h4, h5⟩ := h
  simp only [Shows] at h5
  refine ⟨t.Consume.Consume.Consume.Consume.Consume, ?_⟩
  simp [ReadExpression_succ, ReadTerm_succ, ReadFactor_succ, ReadTermLoop_succ,
    ReadExpressionLoop_succ, h0, h1, h2, h3, h4, h5, ho1, ho2]

/-- The tokens `a + b * c` parse to `a + (b * c)`. -/
theorem parse_sum_of_product {t : Tokenizer} {a b c : Int} (f : Nat)
    (h : Shows t [.Number a, .Symbol '+', .Number b, .Symbol '*', .Number c]) :
    ∃ u, ReadExpression (f + 1 + 1 + 1 + 1 + 1) t =
      .ok (.Operation '+' (.Constant a false)
        (.Operation '*' (.Constant b false) (.Constant c false) false) false, u) := by
  obtain ⟨h0, h1, h2, h3, h4, h5⟩ := h
  simp only [Shows] at h5
  refine ⟨t.Consume.Consume.Consume.Consume.Consume, ?_⟩
  simp [ReadExpression_succ, ReadTerm_succ, ReadFactor_succ, ReadTermLoop_succ,
    ReadExpressionLoop_succ, h0, h1, h2, h3, h4, h5]

/-- The tokens `( a + b ) * c` parse to `(a + b) * c`. -/
theorem parse_product_of_sum {t : Tokenizer} {a b c : Int} (f : Nat)
    (h : Shows t [.Symbol '(', .Number a, .Symbol '+', .Number b, .Symbol ')',
      .Symbol '*', .Number c]) :
    ∃ u, ReadExpression (f + 1 + 1 + 1 + 1 + 1 + 1 + 1) t =
      .ok (.Operation '*' (.Operation '+' (.Constant a false) (.Constant b false) false)
        (.Constant c false) false, u) := by
  obtain ⟨h0, h1, h2, h3, h4, h5, h6, h7⟩ := h
  simp only [Shows] at h7
  refine ⟨t.Consume.Consume.Consume.Consume.Consume.Consume.Consume, ?_⟩
  simp [ReadExpression_succ, ReadTerm_succ, ReadFactor_succ, ReadTermLoop_succ,
    ReadExpressionLoop_succ, h0, h1, h2, h3, h4, h5, h6, h7]

theorem Lex.lit {ds rest : List Char} {toks : List Token} (hl : IsLiteral ds)
    (hr : NoDigitAhead rest) (h : Lex rest toks) :
    Lex (ds ++ rest) (.Number (wrap64 (decimalValue ds)) :: toks) :=
  @Lex.literal [] ds rest toks (by simp) hl hr h

theorem Lex.lit_end {ds : List Char} (hl : IsLiteral ds) :
    Lex ds [.Number (wrap64 (decimalValue ds))] := by
  have := Lex.lit hl noDigitAhead_nil (@Lex.end_ [] (by simp))
  simpa using this

theorem Lex.sym {c : Char} {rest : List Char} {toks : List Token}
    (hc : isGrammarSymbol c = true) (h : Lex rest toks) :
    Lex (c :: rest) (.Symbol c :: toks) :=
  @Lex.symbol [] c rest toks (by simp) hc h

theorem wrap64_natCast {n : Nat} (h : n < 9223372036854775808) : wrap64 (n : Int) = n := by
  unfold wrap64; omega

/-! ## Evaluation of one node -/

theorem Evaluate_constant (v : Int) (n : Bool) :
    (Expression.Constant v n).Evaluate = .ok (if n then wrap64 (-v) else v) := by
  rw [Expression.Evaluate]

theorem Evaluate_left_error {l : Expression} {e : Error} (op : Char) (r : Expression)
    (n : Bool) (hl : l.Evaluate = .error e) :
    (Expression.Operation op l r n).Evaluate = .error e := by
  rw [Expression.Evaluate, hl]

theorem Evaluate_right_error {l r : Expression} {lv : Int} {e : Error} (op : Char)
    (n : Bool) (hl : l.Evaluate = .ok lv) (hr : r.Evaluate = .error e) :
    (Expression.Operation op l r n).Evaluate = .error e := by
  rw [Expression.Evaluate, hl]
  simp only []
  rw [hr]

theorem Evaluate_add {l r : Expression} {lv rv : Int} (n : Bool)
    (hl : l.Evaluate = .ok lv) (hr : r.Evaluate = .ok rv) :
    (Expression.Operation '+' l r n).Evaluate =
      .ok (if n then wrap64 (wrap64 (lv + rv) * -1) else wrap64 (lv + rv)) := by
  rw [Expression.Evaluate, hl]
  simp only []
  rw [hr]
  simp only [if_true]

theorem Evaluate_sub {l r : Expression} {lv rv : Int} (n : Bool)
    (hl : l.Evaluate = .ok lv) (hr : r.Evaluate = .ok rv) :
    (Expression.Operation '-' l r n).Evaluate =
      .ok (if n then wrap64 (wrap64 (lv - rv) * -1) else wrap64 (lv - rv)) := by
  rw [Expression.Evaluate, hl]
  simp only []
  rw [hr]
  simp only [show ¬ ('-' = '+') by decide, if_true, if_false]

theorem Evaluate_mul {l r : Expression} {lv rv : Int} (n : Bool)
    (hl : l.Evaluate = .ok lv) (hr : r.Evaluate = .ok rv) :
    (Expression.Operation '*' l r n).Evaluate =
      .ok (if n then wrap64 (wrap64 (lv * rv) * -1) else wrap64 (lv * rv)) := by
  rw [Expression.Evaluate, hl]
  simp only []
  rw [hr]
  simp only [show ¬ ('*' = '+') by decide, show ¬ ('*' = '-') by decide, if_true, if_false]

theorem Evaluate_div_zero {l r : Expression} {lv : Int} (n : Bool)
    (hl : l.Evaluate = .ok lv) (hr : r.Evaluate = .ok 0) :
    (Expression.Operation '/' l r n).Evaluate = .error .divisionByZero := by
  rw [Expression.Evaluate, hl]
  simp only []
  rw [hr]
  simp only [show ¬ ('/' = '+') by decide, show ¬ ('/' = '-') by decide,
    show ¬ ('/' = '*') by decide, if_true, if_false]

theorem Evaluate_div_overflow {l r : Expression} (n : Bool)
    (hl : l.Evaluate = .ok (-9223372036854775808)) (hr : r.Evaluate = .ok (-1)) :
    (Expression.Operation '/' l r n).Evaluate = .error .divisionOverflow := by
  rw [Expression.Evaluate, hl]
  simp only []
  rw [hr]
  simp only [show ¬ ('/' = '+') by decide, show ¬ ('/' = '-') by decide,
    show ¬ ('/' = '*') by decide, show ¬ ((-1 : Int) = 0) by decide, and_self,
    if_true, if_false]

theorem Evaluate_div {l r : Expression} {lv rv : Int} (n : Bool)
    (hl : l.Evaluate = .ok lv) (hr : r.Evaluate = .ok rv) (h0 : rv ≠ 0)
    (ho : ¬ (lv = -9223372036854775808 ∧ rv = -1)) :
    (Expression.Operation '/' l r n).Evaluate =
      .ok (if n then wrap64 (wrap64 (Int.tdiv lv rv) * -1) else wrap64 (Int.tdiv lv rv)) := by
  rw [Expression.Evaluate, hl]
  simp only []
  rw [hr]
  simp only [show ¬ ('/' = '+') by decide, show ¬ ('/' = '-') by decide,
    show ¬ ('/' = '*') by decide, h0, ho, if_true, if_false]

theorem Evaluate_other {l r : Expression} {lv rv : Int} {op : Char} (n : Bool)
    (hl : l.Evaluate = .ok lv) (hr : r.Evaluate = .ok rv)
    (h : op ≠ '+' ∧ op ≠ '-' ∧ op ≠ '*' ∧ op ≠ '/') :
    (Expression.Operation op l r n).Evaluate = .ok (if n then wrap64 (0 * -1) else 0) := by
  rw [Expression.Evaluate, hl]
  simp only []
  rw [hr]
  simp only [h.1, h.2.1, h.2.2.1, h.2.2.2, if_false]

/-! Nodes without the negation flag, as the parser builds them. -/

theorem Evaluate_const (v : Int) : (Expression.Constant v false).Evaluate = .ok v := by
  rw [Expression.Evaluate]
  simp only [Bool.false_eq_true, if_false]

theorem Evaluate_add_plain {l r : Expression} {lv rv : Int}
    (hl : l.Evaluate = .ok lv) (hr : r.Evaluate = .ok rv) :
    (Expression.Operation '+' l r false).Evaluate = .ok (wrap64 (lv + rv)) := by
  rw [Evaluate_add false hl hr]
  simp only [Bool.false_eq_true, if_false]

theorem Evaluate_sub_plain {l r : Expression} {lv rv : Int}
    (hl : l.Evaluate = .ok lv) (hr : r.Evaluate = .ok rv) :
    (Expression.Operation '-' l r false).Evaluate = .ok (wrap64 (lv - rv)) := by
  rw [Evaluate_sub false hl hr]
  simp only [Bool.false_eq_true, if_false]

theorem Evaluate_mul_plain {l r : Expression} {lv rv : Int}
    (hl : l.Evaluate = .ok lv) (hr : r.Evaluate = .ok rv) :
    (Expression.Operation '*' l r false).Evaluate = .ok (wrap64 (lv * rv)) := by
  rw [Evaluate_mul false hl hr]
  simp only [Bool.false_eq_true, if_false]

theorem Evaluate_div_plain {l r : Expression} {lv rv : Int}
    (hl : l.Evaluate = .ok lv) (hr : r.Evaluate = .ok rv) (h0 : rv ≠ 0)
    (ho : ¬ (lv = -9223372036854775808 ∧ rv = -1)) :
    (Expression.Operation '/' l r false).Evaluate = .ok (wrap64 (Int.tdiv lv rv)) := by
  rw [Evaluate_div false hl hr h0 ho]
  simp only [Bool.false_eq_true, if_false]

/-- The truncated quotient of two `int64_t` values is again one, except for
`-2^63 / -1`. -/
theorem tdiv_inInt64 {l r : Int} (hl : InInt64 l) (hr : InInt64 r)
    (ho : ¬ (l = -9223372036854775808 ∧ r = -1)) : InInt64 (Int.tdiv l r) := by
  unfold InInt64 at *
  have h1 := Int.natAbs_tdiv l r
  have h2 : l.natAbs / r.natAbs ≤ l.natAbs := Nat.div_le_self _ _
  have h3 : (l.natAbs).div (r.natAbs) = l.natAbs / r.natAbs := rfl
  rw [h3] at h1
  by_cases hr1 : r = -1
  · subst hr1
    have : Int.tdiv l (-1) = -l := by
      rw [Int.tdiv_neg, Int.tdiv_one]
    rw [this]
    omega
  · by_cases hl1 : l = -9223372036854775808
    · subst hl1
      by_cases hr0 : r = 0
      · subst hr0; simp
      · by_cases hr2 : r = 1
        · subst hr2; simp
        · have h4 : 2 ≤ r.natAbs := by omega
          have h5 : (9223372036854775808 : Nat) / r.natAbs ≤ 9223372036854775808 / 2 :=
            Nat.div_le_div_left h4 (by decide)
          have h6 : (-9223372036854775808 : Int).natAbs = 9223372036854775808 := rfl
          rw [h6] at h1
          norm_num at h5
          omega
    · omega

/-- Only the two failures of `ReadFactor` come out of the parsing functions. -/
theorem parse_error_is_syntactic (f : Nat) :
    (∀ t e, ReadFactor f t = .error e → e.isSyntaxError = true) ∧
    (∀ node t e, ReadTermLoop f node t = .error e → e.isSyntaxError = true) ∧
    (∀ t e, ReadTerm f t = .error e → e.isSyntaxError = true) ∧
    (∀ node t e, ReadExpressionLoop f node t = .error e → e.isSyntaxError = true) ∧
    (∀ t e, ReadExpression f t = .error e → e.isSyntaxError = true) := by
  induction f with
  | zero =>
    refine ⟨fun t e h => ?_, fun node t e h => ?_, fun t e h => ?_,
      fun node t e h => ?_, fun t e h => ?_⟩
    · rw [ReadFactor] at h; cases h
    · rw [ReadTermLoop] at h; cases h
    · rw [ReadTerm] at h; cases h
    · rw [ReadExpressionLoop] at h; cases h
    · rw [ReadExpression] at h; cases h
  | succ f ih =>
    obtain ⟨ihF, ihTL, ihT, ihEL, ihE⟩ := ih
    refine ⟨fun t e h => ?_, fun node t e h => ?_, fun t e h => ?_,
      fun node t e h => ?_, fun t e h => ?_⟩
    · rw [ReadFactor_succ] at h
      cases hc : t.current with
      | Number n => simp [hc] at h
      | End =>
        simp only [hc, Result.error.injEq] at h
        rw [← h]; rfl
      | Symbol c =>
        simp only [hc] at h
        by_cases hm : c = '-'
        · simp only [hm, if_true] at h
          cases hc1 : t.Consume.current with
          | Number n => simp [hc1] at h
          | End =>
            simp only [hc1, Result.error.injEq] at h
            rw [← h]; rfl
          | Symbol d =>
            simp only [hc1] at h
            by_cases hd : d = '('
            · simp only [hd, if_true] at h
              cases hr : ReadExpression f t.Consume.Consume with
              | ok p => simp [hr] at h
              | error e1 =>
                simp only [hr, Result.error.injEq] at h
                rw [← h]; exact ihE _ _ hr
              | outOfFuel => simp [hr] at h
            · simp only [hd, if_false, Result.error.injEq] at h
              rw [← h]; rfl
        · by_cases hd : c = '('
          · subst hd
            simp only [show ¬ ('(' = '-') by decide, if_true, if_false] at h
            cases hr : ReadExpression f t.Consume with
            | ok p => simp [hr] at h
            | error e1 =>
              simp only [hr, Result.error.injEq] at h
              rw [← h]; exact ihE _ _ hr
            | outOfFuel => simp [hr] at h
          · simp only [hm, hd, if_false, Result.error.injEq] at h
            rw [← h]; rfl
    · rw [ReadTermLoop_succ] at h
      cases hc : t.current with
      | Number n => simp [hc] at h
      | End => simp [hc] at h
      | Symbol c =>
        simp only [hc] at h
        by_cases hm : c = '*' ∨ c = '/'
        · simp only [hm, if_true] at h
          cases hr : ReadFactor f t.Consume with
          | ok p =>
            obtain ⟨right, t1⟩ := p
            simp only [hr] at h
            exact ihTL _ _ _ h
          | error e1 =>
            simp only [hr, Result.error.injEq] at h
            rw [← h]; exact ihF _ _ hr
          | outOfFuel => simp [hr] at h
        · simp [hm] at h
    · rw [ReadTerm_succ] at h
      cases hr : ReadFactor f t with
      | ok p =>
        obtain ⟨node, t1⟩ := p
        simp only [hr] at h
        exact ihTL _ _ _ h
      | error e1 =>
        simp only [hr, Result.error.injEq] at h
        rw [← h]; exact ihF _ _ hr
      | outOfFuel => simp [hr] at h
    · rw [ReadExpressionLoop_succ] at h
      cases hc : t.current with
      | Number n => simp [hc] at h
      | End => simp [hc] at h
      | Symbol c =>
        simp only [hc] at h
        by_cases hm : c = '+' ∨ c = '-'
        · simp only [hm, if_true] at h
          cases hr : ReadTerm f t.Consume with
          | ok p =>
            obtain ⟨right, t1⟩ := p
            simp only [hr] at h
            exact ihEL _ _ _ h
          | error e1 =>
            simp only [hr, Result.error.injEq] at h
            rw [← h]; exact ihT _ _ hr
          | outOfFuel => simp [hr] at h
        · simp [hm] at h
    · rw [ReadExpression_succ] at h
      cases hr : ReadTerm f t with
      | ok p =>
        obtain ⟨node, t1⟩ := p
        simp only [hr] at h
        exact ihEL _ _ _ h
      | error e1 =>
        simp only [hr, Result.error.injEq] at h
        rw [← h]; exact ihT _ _ hr
      | outOfFuel => simp [hr] at h

/-! ## Values in range -/

theorem consumeLoop_wf (t : Tokenizer) (ht : t.WF) (cs : List Char) (b : Bool) (res : Int)
    (hres : InInt64 res) : (t.consumeLoop cs b res).WF := by
  induction cs generalizing b res with
  | nil =>
    rw [Tokenizer.consumeLoop]
    cases b
    · exact ht
    · exact hres
  | cons c cs ih =>
    rw [Tokenizer.consumeLoop]
    cases b
    · simp only [Bool.false_eq_true, if_false]
      by_cases hd : isDigit c = true
      · simp only [hd, if_true]
        exact ih _ _ (wrap64_inInt64 _)
      · simp only [hd, if_false]
        by_cases hg : isGrammarSymbol c = true
        · simp only [hg, Bool.not_true, Bool.false_eq_true, if_false]
          exact ht
        · simp only [hg, Bool.not_false, if_true]
          exact ih _ _ hres
    · simp only [if_true]
      by_cases hd : isDigit c = true
      · simp only [hd, if_true]
        exact ih _ _ (wrap64_inInt64 _)
      · simp only [hd, if_false]
        exact hres

theorem Consume_wf {t : Tokenizer} (ht : t.WF) : t.Consume.WF :=
  consumeLoop_wf t ht _ _ _ (by decide)

theorem new_wf (input : List Char) : (Tokenizer.new input).WF :=
  @Consume_wf { in_ := input, type_ := .kEnd, number_ := 0, symbol_ := '\x00' }
    (show InInt64 0 by decide)

theorem operation_wf {l r : Expression} (op : Char) (n : Bool) (hl : l.WF) (hr : r.WF) :
    (Expression.Operation op l r n).WF := by
  rw [Expression.WF]
  exact ⟨hl, hr⟩

theorem current_number_inInt64 {t : Tokenizer} {n : Int} (ht : t.WF)
    (h : t.current = .Number n) : InInt64 n := by
  unfold Tokenizer.current at h
  cases h1 : t.type_ <;> simp [h1] at h
  rw [← h]; exact ht

theorem ApplyMinus_wf {e : Expression} (h : e.WF) : e.ApplyMinus.WF := by
  cases e <;> exact h

/-- On a tokenizer holding 64-bit values the parsing functions build trees of
64-bit constants. -/
theorem parse_wf (f : Nat) :
    (∀ t e u, t.WF → ReadFactor f t = .ok (e, u) → e.WF ∧ u.WF) ∧
    (∀ node t e u, node.WF → t.WF → ReadTermLoop f node t = .ok (e, u) → e.WF ∧ u.WF) ∧
    (∀ t e u, t.WF → ReadTerm f t = .ok (e, u) → e.WF ∧ u.WF) ∧
    (∀ node t e u, node.WF → t.WF → ReadExpressionLoop f node t = .ok (e, u) →
      e.WF ∧ u.WF) ∧
    (∀ t e u, t.WF → ReadExpression f t = .ok (e, u) → e.WF ∧ u.WF) := by
  induction f with
  | zero =>
    refine ⟨fun t e u _ h => ?_, fun node t e u _ _ h => ?_, fun t e u _ h => ?_,
      fun node t e u _ _ h => ?_, fun t e u _ h => ?_⟩
    · rw [ReadFactor] at h; cases h
    · rw [ReadTermLoop] at h; cases h
    · rw [ReadTerm] at h; cases h
    · rw [ReadExpressionLoop] at h; cases h
    · rw [ReadExpression] at h; cases h
  | succ f ih =>
    obtain ⟨ihF, ihTL, ihT, ihEL, ihE⟩ := ih
    refine ⟨fun t e u ht h => ?_, fun node t e u hn ht h => ?_, fun t e u ht h => ?_,
      fun node t e u hn ht h => ?_, fun t e u ht h => ?_⟩
    · rw [ReadFactor_succ] at h
      cases hc : t.current with
      | Number n =>
        simp only [hc, Result.ok.injEq, Prod.mk.injEq] at h
        rw [← h.1, ← h.2]
        exact ⟨current_number_inInt64 ht hc, Consume_wf ht⟩
      | End => simp [hc] at h
      | Symbol c =>
        simp only [hc] at h
        by_cases hm : c = '-'
        · simp only [hm, if_true] at h
          cases hc1 : t.Consume.current with
          | Number n =>
            simp only [hc1, Result.ok.injEq, Prod.mk.injEq] at h
            rw [← h.1, ← h.2]
            exact ⟨current_number_inInt64 (Consume_wf ht) hc1, Consume_wf (Consume_wf ht)⟩
          | End => simp [hc1] at h
          | Symbol d =>
            simp only [hc1] at h
            by_cases hd : d = '('
            · simp only [hd, if_true] at h
              cases hr : ReadExpression f t.Consume.Consume with
              | ok p =>
                obtain ⟨res, t2⟩ := p
                simp only [hr, Result.ok.injEq, Prod.mk.injEq] at h
                rw [← h.1, ← h.2]
                have := ihE _ _ _ (Consume_wf (Consume_wf ht)) hr
                exact ⟨ApplyMinus_wf this.1, Consume_wf this.2⟩
              | error e => simp [hr] at h
              | outOfFuel => simp [hr] at h
            · simp [hd] at h
        · by_cases hd : c = '('
          · subst hd
            simp only [show ¬ ('(' = '-') by decide, if_true, if_false] at h
            cases hr : ReadExpression f t.Consume with
            | ok p =>
              obtain ⟨res, t2⟩ := p
              simp only [hr, Result.ok.injEq, Prod.mk.injEq] at h
              rw [← h.1, ← h.2]
              have := ihE _ _ _ (Consume_wf ht) hr
              exact ⟨this.1, Consume_wf this.2⟩
            | error e => simp [hr] at h
            | outOfFuel => simp [hr] at h
          · simp [hm, hd] at h
    · rw [ReadTermLoop_succ] at h
      cases hc : t.current with
      | Number n =>
        simp only [hc, Result.ok.injEq, Prod.mk.injEq] at h
        rw [← h.1, ← h.2]; exact ⟨hn, ht⟩
      | End =>
        simp only [hc, Result.ok.injEq, Prod.mk.injEq] at h
        rw [← h.1, ← h.2]; exact ⟨hn, ht⟩
      | Symbol c =>
        simp only [hc] at h
        by_cases hm : c = '*' ∨ c = '/'
        · simp only [hm, if_true] at h
          cases hr : ReadFactor f t.Consume with
          | ok p =>
            obtain ⟨right, t1⟩ := p
            simp only [hr] at h
            have := ihF _ _ _ (Consume_wf ht) hr
            exact ihTL _ _ _ _ (operation_wf _ _ hn this.1) this.2 h
          | error e => simp [hr] at h
          | outOfFuel => simp [hr] at h
        · simp only [hm, if_false, Result.ok.injEq, Prod.mk.injEq] at h
          rw [← h.1, ← h.2]; exact ⟨hn, ht⟩
    · rw [ReadTerm_succ] at h
      cases hr : ReadFactor f t with
      | ok p =>
        obtain ⟨node, t1⟩ := p
        simp only [hr] at h
        have := ihF _ _ _ ht hr
        exact ihTL _ _ _ _ this.1 this.2 h
      | error e => simp [hr] at h
      | outOfFuel => simp [hr] at h
    · rw [ReadExpressionLoop_succ] at h
      cases hc : t.current with
      | Number n =>
        simp only [hc, Result.ok.injEq, Prod.mk.injEq] at h
        rw [← h.1, ← h.2]; exact ⟨hn, ht⟩
      | End =>
        simp only [hc, Result.ok.injEq, Prod.mk.injEq] at h
        rw [← h.1, ← h.2]; exact ⟨hn, ht⟩
      | Symbol c =>
        simp only [hc] at h
        by_cases hm : c = '+' ∨ c = '-'
        · simp only [hm, if_true] at h
          cases hr : ReadTerm f t.Consume with
          | ok p =>
            obtain ⟨right, t1⟩ := p
            simp only [hr] at h
            have := ihT _ _ _ (Consume_wf ht) hr
            exact ihEL _ _ _ _ (operation_wf _ _ hn this.1) this.2 h
          | error e => simp [hr] at h
          | outOfFuel => simp [hr] at h
        · simp only [hm, if_false, Result.ok.injEq, Prod.mk.injEq] at h
          rw [← h.1, ← h.2]; exact ⟨hn, ht⟩
    · rw [ReadExpression_succ] at h
      cases hr : ReadTerm f t with
      | ok p =>
        obtain ⟨node, t1⟩ := p
        simp only [hr] at h
        have := ihT _ _ _ ht hr
        exact ihEL _ _ _ _ this.1 this.2 h
      | error e => simp [hr] at h
      | outOfFuel => simp [hr] at h

/-- The flag of an `Operation` only decides whether the value computed from the
children is negated at the end. -/
theorem Evaluate_operation_flag (op : Char) (l r : Expression) :
    (∃ e, ∀ n, (Expression.Operation op l r n).Evaluate = .error e) ∨
    (∃ res, InInt64 res ∧ ∀ n, (Expression.Operation op l r n).Evaluate =
      .ok (if n then wrap64 (res * -1) else res)) := by
  cases hl : l.Evaluate with
  | error e => exact Or.inl ⟨e, fun n => Evaluate_left_error op r n hl⟩
  | ok lv =>
    cases hr : r.Evaluate with
    | error e => exact Or.inl ⟨e, fun n => Evaluate_right_error op n hl hr⟩
    | ok rv =>
      by_cases h1 : op = '+'
      · subst h1
        exact Or.inr ⟨_, wrap64_inInt64 _, fun n => Evaluate_add n hl hr⟩
      by_cases h2 : op = '-'
      · subst h2
        exact Or.inr ⟨_, wrap64_inInt64 _, fun n => Evaluate_sub n hl hr⟩
      by_cases h3 : op = '*'
      · subst h3
        exact Or.inr ⟨_, wrap64_inInt64 _, fun n => Evaluate_mul n hl hr⟩
      by_cases h4 : op = '/'
      · subst h4
        by_cases h0 : rv = 0
        · subst h0
          exact Or.inl ⟨_, fun n => Evaluate_div_zero n hl hr⟩
        · by_cases ho : lv = -9223372036854775808 ∧ rv = -1
          · obtain ⟨ho1, ho2⟩ := ho
            subst ho1; subst ho2
            exact Or.inl ⟨_, fun n => Evaluate_div_overflow n hl hr⟩
          · exact Or.inr ⟨_, wrap64_inInt64 _, fun n => Evaluate_div n hl hr h0 ho⟩
      · exact Or.inr ⟨0, by decide, fun n => by
          rw [Evaluate_other n hl hr ⟨h1, h2, h3, h4⟩]⟩

/-- `ApplyMinus` negates the value of a tree of 64-bit constants. -/
theorem Evaluate_ApplyMinus {e : Expression} {v : Int} (hw : e.WF) (hv : e.Evaluate = .ok v) :
    e.ApplyMinus.Evaluate = .ok (wrap64 (-v)) := by
  cases e with
  | Constant c n =>
    rw [Evaluate_constant] at hv
    simp only [Except.ok.injEq] at hv
    rw [Expression.ApplyMinus, Evaluate_constant]
    cases n
    · simp only [Bool.false_eq_true, if_false] at hv
      subst hv
      simp
    · simp only [if_true] at hv
      subst hv
      have hc : InInt64 c := hw
      simp only [Bool.xor_self, Bool.false_eq_true, if_false, Except.ok.injEq]
      rw [wrap64_neg_wrap64, neg_neg, wrap64_of_inInt64 hc]
  | Operation op l r n =>
    rw [Expression.ApplyMinus]
    rcases Evaluate_operation_flag op l r with ⟨e, he⟩ | ⟨res, hres, he⟩
    · rw [he] at hv; cases hv
    · rw [he] at hv
      simp only [Except.ok.injEq] at hv
      rw [he]
      cases n
      · simp only [Bool.false_eq_true, if_false] at hv
        subst hv
        simp only [Bool.false_xor, if_true, Except.ok.injEq]
        have : res * -1 = -res := by omega
        rw [this]
      · simp only [if_true] at hv
        subst hv
        simp only [Bool.xor_self, Bool.false_eq_true, if_false, Except.ok.injEq]
        have : res * -1 = -res := by omega
        rw [this, wrap64_neg_wrap64, neg_neg, wrap64_of_inInt64 hres]

/-! ## Appending a closing parenthesis to the input -/

theorem consumeLoop_parenExt (t t' : Tokenizer) (cs : List Char) (b : Bool) (res : Int) :
    ParenExt (t.consumeLoop cs b res) (t'.consumeLoop (cs ++ [')']) b res) := by
  induction cs generalizing b res with
  | nil =>
    cases b
    · right
      simp [Tokenizer.consumeLoop, Tokenizer.current, isDigit, isGrammarSymbol]
    · left
      simp [Tokenizer.consumeLoop, Tokenizer.current, isDigit]
  | cons c cs ih =>
    rw [List.cons_append, Tokenizer.consumeLoop, Tokenizer.consumeLoop]
    cases b
    · simp only [Bool.false_eq_true, if_false]
      by_cases hd : isDigit c = true
      · simp only [hd, if_true]
        exact ih _ _
      · simp only [hd, if_false]
        by_cases hg : isGrammarSymbol c = true
        · simp only [hg, Bool.not_true, Bool.false_eq_true, if_false]
          left
          simp [Tokenizer.current]
        · simp only [hg, Bool.not_false, if_true]
          exact ih _ _
    · simp only [if_true]
      by_cases hd : isDigit c = true
      · simp only [hd, if_true]
        exact ih _ _
      · simp only [hd, if_false]
        left
        simp [Tokenizer.current]

theorem Consume_parenExt {t t' : Tokenizer} (h : t'.in_ = t.in_ ++ [')']) :
    ParenExt t.Consume t'.Consume := by
  unfold Tokenizer.Consume
  rw [h]
  exact consumeLoop_parenExt t t' t.in_ false 0

theorem Consume_current_of_in_nil {t : Tokenizer} (h : t.in_ = []) :
    t.Consume.current = .End ∧ t.Consume.in_ = [] := by
  rw [Consume_end t [] (by simp) h]
  exact ⟨rfl, rfl⟩

theorem parenExt_sim : ParserSim ParenExt where
  look := by
    intro t t' h
    rcases h with ⟨_, h2, _⟩ | ⟨h1, _, _, h4 | h4⟩
    · exact Or.inl h2.symm
    · exact Or.inr ⟨h1, h4⟩
    · exact Or.inl (h1.trans h4.symm)
  consume := by
    intro t t' h
    rcases h with ⟨_, _, h3⟩ | ⟨_, h2, h3, _⟩
    · exact Consume_parenExt h3
    · right
      exact ⟨(Consume_current_of_in_nil h2).1, (Consume_current_of_in_nil h2).2,
        (Consume_current_of_in_nil h3).2, Or.inr (Consume_current_of_in_nil h3).1⟩

/-- Tokenizers related by a simulation give `EvaluateExpression` the same outcome. -/
theorem ParseExpression_sim {R : Tokenizer → Tokenizer → Prop} (hR : ParserSim R)
    {t t' : Tokenizer} (h : R t t') : ResultSim R (ParseExpression t) (ParseExpression t') := by
  have h1 : ReadExpression (max (parseFuel t) (parseFuel t')) t = ParseExpression t :=
    ReadExpression_fuel_mono (ParseExpression_ne_outOfFuel t) (Nat.le_max_left _ _)
  have h2 : ReadExpression (max (parseFuel t) (parseFuel t')) t' = ParseExpression t' :=
    ReadExpression_fuel_mono (ParseExpression_ne_outOfFuel t') (Nat.le_max_right _ _)
  rw [← h1, ← h2]
  exact (parse_sim hR _).2.2.2.2 t t' h

theorem EvaluateExpression_sim {R : Tokenizer → Tokenizer → Prop} (hR : ParserSim R)
    {s s' : List Char} (h : R (Tokenizer.new s) (Tokenizer.new s')) :
    EvaluateExpression s = EvaluateExpression s' := by
  have := ParseExpression_sim hR h
  unfold EvaluateExpression
  revert this
  cases ParseExpression (Tokenizer.new s) <;> cases ParseExpression (Tokenizer.new s') <;>
    simp only [ResultSim, imp_self, false_implies]
  · rintro ⟨h1, -⟩
    rw [h1]
  · rintro rfl
    rfl

/-! ## Inserting a noise character into the input -/

theorem endsWithDigit_cons {p : Char} {ps : List Char} (h : endsWithDigit ps = true) :
    endsWithDigit (p :: ps) = true := by
  cases ps with
  | nil => simp [endsWithDigit] at h
  | cons q qs => simpa [endsWithDigit, List.getLast?_cons_cons] using h

theorem endsWithDigit_singleton {p : Char} (h : isDigit p = true) :
    endsWithDigit [p] = true := by
  simpa [endsWithDigit] using h

theorem consumeLoop_congr (t t' : Tokenizer) (cs : List Char) (b : Bool) (res : Int) :
    (t.consumeLoop cs b res).current = (t'.consumeLoop cs b res).current ∧
      (t.consumeLoop cs b res).in_ = (t'.consumeLoop cs b res).in_ := by
  induction cs generalizing b res with
  | nil => cases b <;> simp [Tokenizer.consumeLoop, Tokenizer.current]
  | cons c cs ih =>
    rw [Tokenizer.consumeLoop, Tokenizer.consumeLoop]
    cases b
    · simp only [Bool.false_eq_true, if_false]
      by_cases hd : isDigit c = true
      · simp only [hd, if_true]
        exact ih _ _
      · simp only [hd, if_false]
        by_cases hg : isGrammarSymbol c = true
        · simp [hg, Tokenizer.current]
        · simp only [hg, Bool.not_false, if_true]
          exact ih _ _
    · simp only [if_true]
      by_cases hd : isDigit c = true
      · simp only [hd, if_true]
        exact ih _ _
      · simp [hd, Tokenizer.current]

theorem consumeLoop_insert (t t' : Tokenizer) {c : Char} (hc : isNoise c = true)
    (pre post : List Char) (b : Bool) (res : Int)
    (h : ¬ (endsWithDigit pre = true ∧ startsWithDigit post = true))
    (hb : pre = [] → b = true → startsWithDigit post = false) :
    NoiseRel (t.consumeLoop (pre ++ post) b res) (t'.consumeLoop (pre ++ c :: post) b res) := by
  have hcd : isDigit c = false ∧ isGrammarSymbol c = false := by
    unfold isNoise at hc
    simpa using hc
  induction pre generalizing b res with
  | nil =>
    rw [List.nil_append, List.nil_append, Tokenizer.consumeLoop.eq_def t' (c :: post)]
    cases b
    · simp only [Bool.false_eq_true, if_false, hcd.1, hcd.2, Bool.not_false, if_true]
      exact ⟨(consumeLoop_congr t t' post false res).1,
        Or.inl (consumeLoop_congr t t' post false res).2⟩
    · simp only [if_true, hcd.1, Bool.false_eq_true, if_false]
      have hs := hb rfl rfl
      cases post with
      | nil =>
        rw [Tokenizer.consumeLoop]
        exact ⟨rfl, Or.inr ⟨[], [], c, rfl, rfl, hc, h⟩⟩
      | cons d ds =>
        have hd : isDigit d = false := hs
        rw [Tokenizer.consumeLoop]
        simp only [if_true, hd, Bool.false_eq_true, if_false]
        exact ⟨rfl, Or.inr ⟨[], d :: ds, c, rfl, rfl, hc, h⟩⟩
  | cons p ps ih =>
    have h' : ¬ (endsWithDigit ps = true ∧ startsWithDigit post = true) :=
      fun hh => h ⟨endsWithDigit_cons hh.1, hh.2⟩
    have hdig : isDigit p = true → ∀ res', NoiseRel (t.consumeLoop (ps ++ post) true res')
        (t'.consumeLoop (ps ++ c :: post) true res') := by
      intro hp res'
      refine ih true res' h' ?_
      intro hps _
      subst hps
      cases hsd : startsWithDigit post
      · rfl
      · exact absurd ⟨endsWithDigit_singleton hp, hsd⟩ h
    rw [List.cons_append, List.cons_append, Tokenizer.consumeLoop, Tokenizer.consumeLoop]
    cases b
    · simp only [Bool.false_eq_true, if_false]
      by_cases hd : isDigit p = true
      · simp only [hd, if_true]
        exact hdig hd _
      · simp only [hd, if_false]
        by_cases hg : isGrammarSymbol p = true
        · simp only [hg, Bool.not_true, Bool.false_eq_true, if_false]
          exact ⟨rfl, Or.inr ⟨ps, post, c, rfl, rfl, hc, h'⟩⟩
        · simp only [hg, Bool.not_false, if_true]
          exact ih false res h' (fun _ hf => by cases hf)
    · simp only [if_true]
      by_cases hd : isDigit p = true
      · simp only [hd, if_true]
        exact hdig hd _
      · simp only [hd, if_false]
        exact ⟨rfl, Or.inr ⟨p :: ps, post, c, rfl, rfl, hc, h⟩⟩

theorem Consume_noiseRel {t t' : Tokenizer} (h : t.in_ = t'.in_ ∨ NoiseInsert t.in_ t'.in_) :
    NoiseRel t.Consume t'.Consume := by
  unfold Tokenizer.Consume
  rcases h with h | ⟨pre, post, c, h1, h2, hc, hn⟩
  · rw [← h]
    exact ⟨(consumeLoop_congr t t' t.in_ false 0).1,
      Or.inl (consumeLoop_congr t t' t.in_ false 0).2⟩
  · rw [h1, h2]
    exact consumeLoop_insert t t' hc pre post false 0 hn (fun _ hf => by cases hf)

theorem noiseRel_sim : ParserSim NoiseRel where
  look := fun h => Or.inl h.1
  consume := fun h => Consume_noiseRel h.2

theorem new_noiseRel {s s' : List Char} (h : NoiseInsert s s') :
    NoiseRel (Tokenizer.new s) (Tokenizer.new s') :=
  @Consume_noiseRel { in_ := s, type_ := .kEnd, number_ := 0, symbol_ := '\x00' }
    { in_ := s', type_ := .kEnd, number_ := 0, symbol_ := '\x00' } (Or.inr h)

theorem iterate_noiseRel {t t' : Tokenizer} (h : NoiseRel t t') (k : Nat) :
    NoiseRel (Tokenizer.Consume^[k] t) (Tokenizer.Consume^[k] t') := by
  induction k with
  | zero => exact h
  | succ k ih =>
    rw [Function.iterate_succ_apply', Function.iterate_succ_apply']
    exact Consume_noiseRel ih.2

/-! ## Claims -/

/-- C1: multiplication binds tighter than addition and parentheses override it.
For decimal literals `da`, `db`, `dc` denoting `a`, `b`, `c` below `2^63`, the
input `a+b*c` evaluates to `a + b*c` and the input `(a+b)*c` to `(a+b)*c`, both
reduced to signed 64 bits; `2+3*4` gives 14 and `(2+3)*4` gives 20. -/
theorem precedence_of_product_over_sum (da db dc : List Char)
    (ha : IsLiteral da) (hb : IsLiteral db) (hc : IsLiteral dc)
    (hva : decimalValue da < 9223372036854775808)
    (hvb : decimalValue db < 9223372036854775808)
    (hvc : decimalValue dc < 9223372036854775808) :
    EvaluateExpression (da ++ ['+'] ++ db ++ ['*'] ++ dc) =
        .ok (wrap64 ((decimalValue da : Int) + (decimalValue db : Int) * (decimalValue dc : Int))) ∧
      EvaluateExpression (['('] ++ da ++ ['+'] ++ db ++ [')', '*'] ++ dc) =
        .ok (wrap64 (((decimalValue da : Int) + (decimalValue db : Int)) * (decimalValue dc : Int))) ∧
      EvaluateExpression "2+3*4".toList = .ok 14 ∧
      EvaluateExpression "(2+3)*4".toList = .ok 20 := by
  refine ⟨?_, ?_, by decide, by decide⟩
  · have hlex : Lex (da ++ ['+'] ++ db ++ ['*'] ++ dc)
        [.Number (wrap64 (decimalValue da)), .Symbol '+', .Number (wrap64 (decimalValue db)),
          .Symbol '*', .Number (wrap64 (decimalValue dc))] := by
      have := Lex.lit ha (noDigitAhead_cons _ (by decide : isDigit '+' = false))
        (Lex.sym (by decide) (Lex.lit hb (noDigitAhead_cons _ (by decide : isDigit '*' = false))
          (Lex.sym (by decide) (Lex.lit_end hc))))
      simpa [List.append_assoc] using this
    obtain ⟨u, hu⟩ := parse_sum_of_product 0 hlex.new
    rw [EvaluateExpression_of_parse hu]
    simp [Expression.Evaluate, wrap64_natCast hva, wrap64_natCast hvb, wrap64_natCast hvc,
      wrap64_add_right]
  · have hlex : Lex (['('] ++ da ++ ['+'] ++ db ++ [')', '*'] ++ dc)
        [.Symbol '(', .Number (wrap64 (decimalValue da)), .Symbol '+',
          .Number (wrap64 (decimalValue db)), .Symbol ')', .Symbol '*',
          .Number (wrap64 (decimalValue dc))] := by
      have := Lex.sym (by decide : isGrammarSymbol '(' = true)
        (Lex.lit ha (noDigitAhead_cons _ (by decide : isDigit '+' = false))
        (Lex.sym (by decide) (Lex.lit hb (noDigitAhead_cons _ (by decide : isDigit ')' = false))
          (Lex.sym (by decide) (Lex.sym (by decide : isGrammarSymbol '*' = true)
            (Lex.lit_end hc))))))
      simpa [List.append_assoc] using this
    obtain ⟨u, hu⟩ := parse_product_of_sum 0 hlex.new
    rw [EvaluateExpression_of_parse hu]
    simp [Expression.Evaluate, wrap64_natCast hva, wrap64_natCast hvb, wrap64_natCast hvc,
      wrap64_mul_left]

theorem precedence_of_product_over_sum_witness :
    EvaluateExpression ("12".toList ++ ['+'] ++ "3".toList ++ ['*'] ++ "45".toList) =
        .ok (wrap64 ((decimalValue "12".toList : Int) + (decimalValue "3".toList : Int) *
          (decimalValue "45".toList : Int))) ∧
      EvaluateExpression (['('] ++ "12".toList ++ ['+'] ++ "3".toList ++ [')', '*'] ++ "45".toList) =
        .ok (wrap64 (((decimalValue "12".toList : Int) + (decimalValue "3".toList : Int)) *
          (decimalValue "45".toList : Int))) ∧
      EvaluateExpression "2+3*4".toList = .ok 14 ∧
      EvaluateExpression "(2+3)*4".toList = .ok 20 :=
  precedence_of_product_over_sum "12".toList "3".toList "45".toList
    (by decide) (by decide) (by decide) (by decide) (by decide) (by decide)

set_option maxRecDepth 100000 in
/-- C2, as stated, fails without a reduction to 64 bits and without a bound on
the literals: `0-9223372036854775807-9223372036854775807` evaluates to 2 while
`(a-b)-c` is -18446744073709551614, and `7/18446744073709551616/1`, whose
literals are not zero, fails with DivisionByZero because the tokenizer reads
`18446744073709551616` as 0. -/
theorem left_associativity_counterexample :
    IsLiteral "0".toList ∧ IsLiteral "9223372036854775807".toList ∧
      decimalValue "0".toList = 0 ∧
      decimalValue "9223372036854775807".toList = 9223372036854775807 ∧
      ((0 : Int) - 9223372036854775807) - 9223372036854775807 = -18446744073709551614 ∧
      EvaluateExpression "0-9223372036854775807-9223372036854775807".toList = .ok 2 ∧
      IsLiteral "18446744073709551616".toList ∧
      decimalValue "18446744073709551616".toList ≠ 0 ∧
      decimalValue "1".toList ≠ 0 ∧
      EvaluateExpression "7/18446744073709551616/1".toList = .error .divisionByZero := by
  refine ⟨by decide, by decide, by decide, by decide, by decide, by decide, by decide,
    by decide, by decide, by decide⟩

/-- C2 (amended): binary operators of the same precedence associate to the
left. For all decimal literals denoting `a`, `b`, `c`, the input `a-b-c` parses
to the tree of `(a-b)-c` and evaluates to `(a-b)-c` reduced to signed 64 bits
(to `(a-b)-c` itself when that is a 64-bit value), and `a/b/c` parses to the
tree of `(a/b)/c`; for literals below `2^63` with `b`, `c` non-zero, `a/b/c`
evaluates to `(a/b)/c`; `10-2-3` gives 5, not 11. -/
theorem left_associativity (da db dc : List Char)
    (ha : IsLiteral da) (hb : IsLiteral db) (hc : IsLiteral dc) :
    EvaluateExpression (da ++ ['-'] ++ db ++ ['-'] ++ dc) =
        .ok (wrap64
          ((decimalValue da : Int) - (decimalValue db : Int) - (decimalValue dc : Int))) ∧
      (InInt64 ((decimalValue da : Int) - (decimalValue db : Int) - (decimalValue dc : Int)) →
        EvaluateExpression (da ++ ['-'] ++ db ++ ['-'] ++ dc) =
          .ok ((decimalValue da : Int) - (decimalValue db : Int) - (decimalValue dc : Int))) ∧
      (decimalValue da < 9223372036854775808 → decimalValue db < 9223372036854775808 →
        decimalValue dc < 9223372036854775808 →
        decimalValue db ≠ 0 → decimalValue dc ≠ 0 →
        EvaluateExpression (da ++ ['/'] ++ db ++ ['/'] ++ dc) =
          .ok ((decimalValue da / decimalValue db / decimalValue dc : Nat) : Int)) ∧
      (∃ u, ParseExpression (Tokenizer.new (da ++ ['-'] ++ db ++ ['-'] ++ dc)) =
        .ok (.Operation '-' (.Operation '-' (.Constant (literalValue da) false)
          (.Constant (literalValue db) false) false) (.Constant (literalValue dc) false)
          false, u)) ∧
      (∃ u, ParseExpression (Tokenizer.new (da ++ ['/'] ++ db ++ ['/'] ++ dc)) =
        .ok (.Operation '/' (.Operation '/' (.Constant (literalValue da) false)
          (.Constant (literalValue db) false) false) (.Constant (literalValue dc) false)
          false, u)) ∧
      EvaluateExpression "10-2-3".toList = .ok 5 ∧
      EvaluateExpression "10-2-3".toList ≠ .ok 11 := by
  have hlex : ∀ o : Char, isGrammarSymbol o = true → isDigit o = false →
      Lex (da ++ [o] ++ db ++ [o] ++ dc)
        [.Number (literalValue da), .Symbol o, .Number (literalValue db),
          .Symbol o, .Number (literalValue dc)] := by
    intro o hg hd
    have := Lex.lit ha (noDigitAhead_cons _ hd)
      (Lex.sym hg (Lex.lit hb (noDigitAhead_cons _ hd) (Lex.sym hg (Lex.lit_end hc))))
    simpa [List.append_assoc] using this
  obtain ⟨us, hus⟩ := parse_additive_chain 0 (Or.inr rfl) (Or.inr rfl)
    (hlex '-' (by decide) (by decide)).new
  obtain ⟨ud, hud⟩ := parse_multiplicative_chain 0 (Or.inr rfl) (Or.inr rfl)
    (hlex '/' (by decide) (by decide)).new
  have key : ∀ x y z : Int,
      wrap64 (wrap64 (wrap64 x - wrap64 y) - wrap64 z) = wrap64 (x - y - z) := by
    intro x y z
    unfold wrap64
    omega
  have hsub : EvaluateExpression (da ++ ['-'] ++ db ++ ['-'] ++ dc) =
      .ok (wrap64
        ((decimalValue da : Int) - (decimalValue db : Int) - (decimalValue dc : Int))) := by
    rw [← key]
    exact EvaluateExpression_ok hus
      (Evaluate_sub_plain (Evaluate_sub_plain (Evaluate_const _) (Evaluate_const _))
        (Evaluate_const _))
  refine ⟨hsub, ?_, ?_, ⟨us, ?_⟩, ⟨ud, ?_⟩, by decide, by decide⟩
  · intro hin
    rw [hsub, wrap64_of_inInt64 hin]
  · intro hva hvb hvc hb0 hc0
    have ea : literalValue da = (decimalValue da : Int) := wrap64_natCast hva
    have eb : literalValue db = (decimalValue db : Int) := wrap64_natCast hvb
    have ec : literalValue dc = (decimalValue dc : Int) := wrap64_natCast hvc
    have hb0' : literalValue db ≠ 0 := by rw [eb]; exact_mod_cast hb0
    have hc0' : literalValue dc ≠ 0 := by rw [ec]; exact_mod_cast hc0
    have ho1 : ¬ (literalValue da = -9223372036854775808 ∧ literalValue db = -1) := by
      rw [eb]; omega
    have ho2 : ¬ (wrap64 (Int.tdiv (literalValue da) (literalValue db)) =
        -9223372036854775808 ∧ literalValue dc = -1) := by
      rw [ec]; omega
    have hdiv := EvaluateExpression_ok hud
      (Evaluate_div_plain
        (Evaluate_div_plain (Evaluate_const _) (Evaluate_const _) hb0' ho1)
        (Evaluate_const _) hc0' ho2)
    rw [hdiv, ea, eb, ec]
    have q1 : Int.tdiv (decimalValue da : Int) (decimalValue db : Int) =
        ((decimalValue da / decimalValue db : Nat) : Int) := by
      rw [Int.tdiv_eq_ediv (Int.ofNat_nonneg _) (Int.ofNat_nonneg _)]
      exact (Int.ofNat_ediv _ _).symm
    have b1 : decimalValue da / decimalValue db < 9223372036854775808 :=
      lt_of_le_of_lt (Nat.div_le_self _ _) hva
    rw [q1, wrap64_natCast b1]
    have q2 : Int.tdiv ((decimalValue da / decimalValue db : Nat) : Int) (decimalValue dc : Int) =
        ((decimalValue da / decimalValue db / decimalValue dc : Nat) : Int) := by
      rw [Int.tdiv_eq_ediv (Int.ofNat_nonneg _) (Int.ofNat_nonneg _)]
      exact (Int.ofNat_ediv _ _).symm
    have b2 : decimalValue da / decimalValue db / decimalValue dc < 9223372036854775808 :=
      lt_of_le_of_lt (Nat.div_le_self _ _) b1
    rw [q2, wrap64_natCast b2]
  · rw [ParseExpression_eq_of_fuel _ (by rw [hus]; simp), hus]
  · rw [ParseExpression_eq_of_fuel _ (by rw [hud]; simp), hud]

theorem left_associativity_witness :
    EvaluateExpression ("100".toList ++ ['-'] ++ "20".toList ++ ['-'] ++ "3".toList) =
        .ok (wrap64 ((decimalValue "100".toList : Int) - (decimalValue "20".toList : Int) -
          (decimalValue "3".toList : Int))) ∧
      EvaluateExpression ("100".toList ++ ['/'] ++ "20".toList ++ ['/'] ++ "3".toList) =
        .ok ((decimalValue "100".toList / decimalValue "20".toList / decimalValue "3".toList
          : Nat) : Int) :=
  ⟨(left_associativity "100".toList "20".toList "3".toList (by decide) (by decide)
      (by decide)).1,
    (left_associativity "100".toList "20".toList "3".toList (by decide) (by decide)
      (by decide)).2.2.1 (by decide) (by decide) (by decide) (by decide) (by decide)⟩

/-- C3: an input made of one run of decimal digits denoting `n < 2^63`,
optionally preceded by noise characters, evaluates to `n`. -/
theorem single_literal (ns ds : List Char) (hn : ∀ c ∈ ns, isNoise c = true)
    (hl : IsLiteral ds) (hv : decimalValue ds < 9223372036854775808) :
    EvaluateExpression (ns ++ ds) = .ok (decimalValue ds : Int) := by
  have hlex : Lex (ns ++ ds) [.Number (wrap64 (decimalValue ds))] := by
    have := Lex.literal hn hl noDigitAhead_nil (@Lex.end_ [] (by simp))
    simpa using this
  obtain ⟨u, hu⟩ := parse_single 0 hlex.new
  rw [EvaluateExpression_of_parse hu]
  simp [Expression.Evaluate, wrap64_natCast hv]

theorem single_literal_witness :
    (∀ c ∈ " ,x".toList, isNoise c = true) ∧ IsLiteral "0042".toList ∧
      EvaluateExpression (" ,x".toList ++ "0042".toList) = .ok 42 :=
  ⟨by decide, by decide, single_literal " ,x".toList "0042".toList (by decide) (by decide) (by decide)⟩

/-- C5, as stated, fails on a node whose negation flag is set: the `/` node of
`-(7/2)` has children evaluating to 7 and 2 and evaluates to -3, while the
truncated quotient of 7 by 2 is 3. -/
theorem division_node_flag_counterexample :
    (Expression.Constant 7 false).Evaluate = .ok 7 ∧
      (Expression.Constant 2 false).Evaluate = .ok 2 ∧
      Int.tdiv 7 2 = 3 ∧
      (Expression.Operation '/' (.Constant 7 false) (.Constant 2 false) true).Evaluate
        = .ok (-3) ∧
      (Expression.Operation '/' (.Constant 7 false) (.Constant 2 false) true).Evaluate
        ≠ .ok (Int.tdiv 7 2) ∧
      ParseExpression (Tokenizer.new "-(7/2)".toList) =
        .ok (.Operation '/' (.Constant 7 false) (.Constant 2 false) true,
          { in_ := [], type_ := .kEnd, number_ := 2, symbol_ := ')' }) ∧
      EvaluateExpression "-(7/2)".toList = .ok (-3) := by
  decide

/-- C5 (amended): a `/` node whose children evaluate to `lv` and `rv` fails with
DivisionByZero exactly when `rv = 0`; otherwise, for 64-bit `lv`, `rv` other
than `-2^63 / -1`, it returns the quotient truncated toward zero (its magnitude
is the quotient of the magnitudes), negated modulo `2^64` when the node's flag
is set; `7/2` gives 3, `-7/2` gives -3, `(0-7)/(0-2)` gives 3, `-(7/2)` gives -3
and `5/0` fails with DivisionByZero. -/
theorem division_node (l r : Expression) (n : Bool) (lv rv : Int)
    (hl : l.Evaluate = .ok lv) (hr : r.Evaluate = .ok rv) :
    ((Expression.Operation '/' l r n).Evaluate = .error .divisionByZero ↔ rv = 0) ∧
      (rv ≠ 0 → InInt64 lv → InInt64 rv → ¬ (lv = -9223372036854775808 ∧ rv = -1) →
        (Expression.Operation '/' l r n).Evaluate =
          .ok (if n then wrap64 (-(Int.tdiv lv rv)) else Int.tdiv lv rv)) ∧
      (Int.tdiv lv rv).natAbs = lv.natAbs / rv.natAbs ∧
      EvaluateExpression "7/2".toList = .ok 3 ∧
      EvaluateExpression "-7/2".toList = .ok (-3) ∧
      EvaluateExpression "(0-7)/(0-2)".toList = .ok 3 ∧
      EvaluateExpression "-(7/2)".toList = .ok (-3) ∧
      EvaluateExpression "5/0".toList = .error .divisionByZero := by
  refine ⟨?_, ?_, Int.natAbs_tdiv lv rv, by decide, by decide, by decide, by decide,
    by decide⟩
  · constructor
    · intro h
      by_contra h0
      by_cases ho : lv = -9223372036854775808 ∧ rv = -1
      · obtain ⟨ho1, ho2⟩ := ho
        subst ho1; subst ho2
        rw [Evaluate_div_overflow n hl hr] at h
        cases h
      · rw [Evaluate_div n hl hr h0 ho] at h
        cases h
    · intro h0
      subst h0
      exact Evaluate_div_zero n hl hr
  · intro h0 hlv hrv ho
    rw [Evaluate_div n hl hr h0 ho, wrap64_of_inInt64 (tdiv_inInt64 hlv hrv ho)]
    have : Int.tdiv lv rv * -1 = -(Int.tdiv lv rv) := by omega
    rw [this]

theorem division_node_witness :
    (Expression.Constant 7 true).Evaluate = .ok (-7) ∧
      (Expression.Constant 2 false).Evaluate = .ok 2 ∧
      ((Expression.Operation '/' (.Constant 7 true) (.Constant 2 false) true).Evaluate =
        .error .divisionByZero ↔ (2 : Int) = 0) ∧
      (Expression.Operation '/' (.Constant 7 true) (.Constant 2 false) true).Evaluate =
        .ok (if true then wrap64 (-(Int.tdiv (-7) 2)) else Int.tdiv (-7) 2) :=
  ⟨by decide, by decide,
    (division_node (.Constant 7 true) (.Constant 2 false) true (-7) 2 (by decide) (by decide)).1,
    (division_node (.Constant 7 true) (.Constant 2 false) true (-7) 2 (by decide)
      (by decide)).2.1 (by decide) (by decide) (by decide) (by decide)⟩

/-- C6: division by zero is never a parse-time failure. `ParseExpression` returns
a tree or fails with one of the two syntax errors, never with DivisionByZero (and
the budget of the model never runs out); parsing `5/0` and `5/(2-2)` succeeds and
only `Evaluate` of the returned tree fails with DivisionByZero. -/
theorem parse_never_divides (t : Tokenizer) :
    ((∃ e u, ParseExpression t = .ok (e, u)) ∨ ParseExpression t = .error .invalidFactor ∨
        ParseExpression t = .error .invalidFactorMinus) ∧
      ParseExpression t ≠ .error .divisionByZero ∧
      (∃ e u, ParseExpression (Tokenizer.new "5/0".toList) = .ok (e, u) ∧
        e.Evaluate = .error .divisionByZero) ∧
      (∃ e u, ParseExpression (Tokenizer.new "5/(2-2)".toList) = .ok (e, u) ∧
        e.Evaluate = .error .divisionByZero) := by
  have key : (∃ e u, ParseExpression t = .ok (e, u)) ∨ ParseExpression t = .error .invalidFactor ∨
      ParseExpression t = .error .invalidFactorMinus := by
    cases h : ParseExpression t with
    | ok p => exact Or.inl ⟨p.1, p.2, rfl⟩
    | error e =>
      have := (parse_error_is_syntactic _).2.2.2.2 t e h
      cases e <;> simp [Error.isSyntaxError] at this ⊢
    | outOfFuel => exact absurd h (ParseExpression_ne_outOfFuel t)
  refine ⟨key, ?_, ?_, ?_⟩
  · rcases key with ⟨e, u, h⟩ | h | h <;> rw [h] <;> simp
  · exact ⟨.Operation '/' (.Constant 5 false) (.Constant 0 false) false,
      { in_ := [], type_ := .kEnd, number_ := 0, symbol_ := '/' }, by decide, by decide⟩
  · exact ⟨.Operation '/' (.Constant 5 false)
        (.Operation '-' (.Constant 2 false) (.Constant 2 false) false) false,
      { in_ := [], type_ := .kEnd, number_ := 2, symbol_ := ')' }, by decide, by decide⟩

/-- C10: evaluation of a binary node is strict in both children, for every
operator and flag. If the left child fails, the node fails with that failure
whatever the right child does; if the left child succeeds and the right child
fails, the node fails with the right child's failure; `0*(1/0)` and `(1/0)*0`
fail with DivisionByZero. -/
theorem evaluation_strict (op : Char) (l r : Expression) (n : Bool) :
    (∀ e, l.Evaluate = .error e → (Expression.Operation op l r n).Evaluate = .error e) ∧
      (∀ lv e, l.Evaluate = .ok lv → r.Evaluate = .error e →
        (Expression.Operation op l r n).Evaluate = .error e) ∧
      EvaluateExpression "0*(1/0)".toList = .error .divisionByZero ∧
      EvaluateExpression "(1/0)*0".toList = .error .divisionByZero :=
  ⟨fun _ hl => Evaluate_left_error op r n hl,
    fun _ _ hl hr => Evaluate_right_error op n hl hr, by decide, by decide⟩

theorem evaluation_strict_witness :
    (Expression.Operation '*' (.Constant 0 false)
        (.Operation '/' (.Constant 1 false) (.Constant 0 false) false) true).Evaluate =
        .error .divisionByZero ∧
      (Expression.Operation '+'
        (.Operation '/' (.Constant 1 false) (.Constant 0 false) false)
        (.Operation '/' (.Constant 2 false) (.Constant 0 false) true) false).Evaluate =
        .error .divisionByZero :=
  ⟨(evaluation_strict '*' (.Constant 0 false)
      (.Operation '/' (.Constant 1 false) (.Constant 0 false) false) true).2.1 0
      .divisionByZero (by decide) (by decide),
    (evaluation_strict '+' (.Operation '/' (.Constant 1 false) (.Constant 0 false) false)
      (.Operation '/' (.Constant 2 false) (.Constant 0 false) true) false).1
      .divisionByZero (by decide)⟩

/-- C7: unary minus before a parenthesised expression negates it. If parsing
the input `s` succeeds with lookahead `End` on return and the tree evaluates to
`v`, then `-(` followed by `s` and `)` evaluates to the 64-bit negation of `v`;
`-(2+3)` gives -5 and `-(-(2+3))` gives 5. -/
theorem unary_minus_parenthesised (s : List Char) (e : Expression) (u : Tokenizer) (v : Int)
    (hp : ParseExpression (Tokenizer.new s) = .ok (e, u)) (hu : u.current = .End)
    (hv : e.Evaluate = .ok v) :
    EvaluateExpression (['-', '('] ++ s ++ [')']) = .ok (wrap64 (-v)) ∧
      EvaluateExpression "-(2+3)".toList = .ok (-5) ∧
      EvaluateExpression "-(-(2+3))".toList = .ok 5 := by
  refine ⟨?_, by decide, by decide⟩
  -- the first two tokens
  have h0 : Tokenizer.new (['-', '('] ++ s ++ [')']) =
      { in_ := '(' :: (s ++ [')']), type_ := .kSymbol, number_ := 0, symbol_ := '-' } := by
    unfold Tokenizer.new
    rw [Consume_symbol _ [] '-' ('(' :: (s ++ [')'])) (by simp) (by decide) (by simp)]
  have h1 : (Tokenizer.new (['-', '('] ++ s ++ [')'])).Consume =
      { in_ := s ++ [')'], type_ := .kSymbol, number_ := 0, symbol_ := '(' } := by
    rw [h0, Consume_symbol _ [] '(' (s ++ [')']) (by simp) (by decide) (by simp)]
  -- from there on the parser sees `s` followed by `)`
  have hrel : ParenExt (Tokenizer.new s)
      (Tokenizer.new (['-', '('] ++ s ++ [')'])).Consume.Consume := by
    rw [h1]
    exact @Consume_parenExt { in_ := s, type_ := .kEnd, number_ := 0, symbol_ := '\x00' }
      { in_ := s ++ [')'], type_ := .kSymbol, number_ := 0, symbol_ := '(' } rfl
  have hsim := (parse_sim parenExt_sim (parseFuel (Tokenizer.new s))).2.2.2.2 _ _ hrel
  have hp' : ReadExpression (parseFuel (Tokenizer.new s)) (Tokenizer.new s) = .ok (e, u) := hp
  rw [hp'] at hsim
  cases hr : ReadExpression (parseFuel (Tokenizer.new s))
      (Tokenizer.new (['-', '('] ++ s ++ [')'])).Consume.Consume with
  | error err => rw [hr] at hsim; exact absurd hsim (by simp [ResultSim])
  | outOfFuel => rw [hr] at hsim; exact absurd hsim (by simp [ResultSim])
  | ok q =>
    obtain ⟨e', u'⟩ := q
    rw [hr] at hsim
    obtain ⟨he, hu'⟩ : e = e' ∧ ParenExt u u' := hsim
    subst he
    have hin : u'.in_ = [] := by
      rcases hu' with ⟨h, _, _⟩ | ⟨_, _, h, _⟩
      · exact absurd hu h
      · exact h
    have hend : u'.Consume.current = .End := (Consume_current_of_in_nil hin).1
    have hc0 : (Tokenizer.new (['-', '('] ++ s ++ [')'])).current = .Symbol '-' := by
      rw [h0]; rfl
    have hc1 : (Tokenizer.new (['-', '('] ++ s ++ [')'])).Consume.current = .Symbol '(' := by
      rw [h1]; rfl
    have hparse : ReadExpression (parseFuel (Tokenizer.new s) + 1 + 1 + 1)
        (Tokenizer.new (['-', '('] ++ s ++ [')'])) = .ok (e.ApplyMinus, u'.Consume) := by
      rw [ReadExpression_succ, ReadTerm_succ, ReadFactor_succ, hc0]
      simp only [if_true, hc1, hr]
      rw [ReadTermLoop_stop _ _ (by simp [hend])]
      simp only []
      rw [ReadExpressionLoop_stop _ _ (by simp [hend])]
    have hw : e.WF := ((parse_wf _).2.2.2.2 _ _ _ (new_wf s) hp').1
    exact EvaluateExpression_ok hparse (Evaluate_ApplyMinus hw hv)

theorem unary_minus_parenthesised_witness :
    EvaluateExpression (['-', '('] ++ "(4*5".toList ++ [')']) = .ok (wrap64 (-20)) :=
  (unary_minus_parenthesised "(4*5".toList
    (.Operation '*' (.Constant 4 false) (.Constant 5 false) false)
    { in_ := [], type_ := .kEnd, number_ := 5, symbol_ := '*' } 20
    (by decide) (by decide) (by decide)).1

/-- C4: noise insertion never changes the result. If `s'` is obtained from `s`
by inserting noise characters (neither digits nor grammar symbols), one after the
other, at positions that are not strictly between two adjacent digits, then the
tokenizer shows the same token after construction and after every number of
`Consume` calls on `s'` as on `s`, and `EvaluateExpression` has the same outcome
on both; `2 + 3` and `2,+,3` both give 5. -/
theorem noise_insertion (s s' : List Char) (h : Relation.ReflTransGen NoiseInsert s s') :
    (∀ k : Nat, (Tokenizer.Consume^[k] (Tokenizer.new s')).current =
        (Tokenizer.Consume^[k] (Tokenizer.new s)).current) ∧
      EvaluateExpression s' = EvaluateExpression s ∧
      EvaluateExpression "2 + 3".toList = .ok 5 ∧
      EvaluateExpression "2,+,3".toList = .ok 5 := by
  refine ⟨?_, ?_, by decide, by decide⟩
  · induction h with
    | refl => intro k; rfl
    | tail _ hstep ih =>
      intro k
      rw [← ih k]
      exact ((iterate_noiseRel (new_noiseRel hstep) k).1).symm
  · induction h with
    | refl => rfl
    | tail _ hstep ih =>
      rw [← ih]
      exact (EvaluateExpression_sim noiseRel_sim (new_noiseRel hstep)).symm

theorem noise_insertion_witness :
    Relation.ReflTransGen NoiseInsert "12+3".toList "12 +\t3".toList ∧
      EvaluateExpression "12 +\t3".toList = EvaluateExpression "12+3".toList :=
  have h1 : NoiseInsert "12+3".toList "12 +3".toList :=
    ⟨"12".toList, "+3".toList, ' ', by decide, by decide, by decide, by decide⟩
  have h2 : NoiseInsert "12 +3".toList "12 +\t3".toList :=
    ⟨"12 +".toList, "3".toList, '\t', by decide, by decide, by decide, by decide⟩
  have h : Relation.ReflTransGen NoiseInsert "12+3".toList "12 +\t3".toList :=
    Relation.ReflTransGen.tail (Relation.ReflTransGen.single h1) h2
  ⟨h, (noise_insertion "12+3".toList "12 +\t3".toList h).2.1⟩

/-! ## Further claims -/

set_option maxRecDepth 100000 in
/-- C11: arithmetic wraps at 64 bits and never fails on overflow. For a `+`, `-`
or `*` node whose children evaluate to `lv` and `rv`, `Evaluate` returns the
mathematical result reduced modulo `2^64` into `[-2^63, 2^63)`, negated modulo
`2^64` if the node's flag is set; `9223372036854775807+1` gives
-9223372036854775808. -/
theorem arithmetic_wraps (l r : Expression) (n : Bool) (lv rv : Int)
    (hl : l.Evaluate = .ok lv) (hr : r.Evaluate = .ok rv) :
    (Expression.Operation '+' l r n).Evaluate =
        .ok (if n then wrap64 (-(wrap64 (lv + rv))) else wrap64 (lv + rv)) ∧
      (Expression.Operation '-' l r n).Evaluate =
        .ok (if n then wrap64 (-(wrap64 (lv - rv))) else wrap64 (lv - rv)) ∧
      (Expression.Operation '*' l r n).Evaluate =
        .ok (if n then wrap64 (-(wrap64 (lv * rv))) else wrap64 (lv * rv)) ∧
      (∀ x : Int, InInt64 (wrap64 x) ∧ wrap64 x ≡ x [ZMOD 18446744073709551616]) ∧
      EvaluateExpression "9223372036854775807+1".toList = .ok (-9223372036854775808) := by
  refine ⟨?_, ?_, ?_, fun x => ⟨wrap64_inInt64 x, wrap64_modEq x⟩, by decide⟩
  · rw [Evaluate_add n hl hr, Int.mul_neg_one]
  · rw [Evaluate_sub n hl hr, Int.mul_neg_one]
  · rw [Evaluate_mul n hl hr, Int.mul_neg_one]

theorem arithmetic_wraps_witness :
    (Expression.Operation '*' (.Constant 4611686018427387904 false) (.Constant 4 false)
        true).Evaluate =
      .ok (if true then wrap64 (-(wrap64 (4611686018427387904 * 4)))
        else wrap64 (4611686018427387904 * 4)) :=
  (arithmetic_wraps (.Constant 4611686018427387904 false) (.Constant 4 false) true
    4611686018427387904 4 (by decide) (by decide)).2.2.1

/-! ### The tokenizer on its own -/

theorem takeWhile_isDigit_isLiteral {c : Char} (cs : List Char) (hc : isDigit c = true) :
    IsLiteral ((c :: cs).takeWhile isDigit) := by
  constructor
  · simp [List.takeWhile, hc]
  · intro x hx
    exact (List.mem_takeWhile_imp hx)

theorem noDigitAhead_dropWhile (cs : List Char) : NoDigitAhead (cs.dropWhile isDigit) := by
  induction cs with
  | nil => simp [NoDigitAhead]
  | cons c cs ih =>
    by_cases hc : isDigit c = true
    · simpa [List.dropWhile, hc] using ih
    · simp only [Bool.not_eq_true] at hc
      simp [List.dropWhile, hc, NoDigitAhead]

theorem consumeLoop_symbol_grammar (t : Tokenizer) (cs : List Char) (b : Bool) (res : Int)
    (h : (t.consumeLoop cs b res).type_ = .kSymbol) :
    isGrammarSymbol (t.consumeLoop cs b res).symbol_ = true := by
  induction cs generalizing b res with
  | nil =>
    rw [Tokenizer.consumeLoop] at h
    cases b <;> simp at h
  | cons c cs ih =>
    rw [Tokenizer.consumeLoop] at h ⊢
    cases b
    · simp only [Bool.false_eq_true, if_false] at h ⊢
      by_cases hd : isDigit c = true
      · simp only [hd, if_true] at h ⊢
        exact ih _ _ h
      · simp only [hd, if_false] at h ⊢
        by_cases hg : isGrammarSymbol c = true
        · simp only [hg, Bool.not_true, Bool.false_eq_true, if_false]
        · simp only [hg, Bool.not_false, if_true] at h ⊢
          exact ih _ _ h
    · simp only [if_true] at h ⊢
      by_cases hd : isDigit c = true
      · simp only [hd, if_true] at h ⊢
        exact ih _ _ h
      · simp [hd] at h

theorem consumeLoop_settled (t : Tokenizer) (cs : List Char) (b : Bool) (res : Int) :
    (t.consumeLoop cs b res).Settled := by
  induction cs generalizing b res with
  | nil =>
    rw [Tokenizer.consumeLoop]
    cases b <;> simp [Tokenizer.Settled]
  | cons c cs ih =>
    rw [Tokenizer.consumeLoop]
    cases b
    · simp only [Bool.false_eq_true, if_false]
      by_cases hd : isDigit c = true
      · simp only [hd, if_true]
        exact ih _ _
      · simp only [hd, if_false]
        by_cases hg : isGrammarSymbol c = true
        · simp [hg, Tokenizer.Settled]
        · simp only [hg, Bool.not_false, if_true]
          exact ih _ _
    · simp only [if_true]
      by_cases hd : isDigit c = true
      · simp only [hd, if_true]
        exact ih _ _
      · simp [hd, Tokenizer.Settled]

theorem Consume_settled (t : Tokenizer) : t.Consume.Settled :=
  consumeLoop_settled t _ _ _

theorem current_eq_End_iff (t : Tokenizer) : t.current = .End ↔ t.type_ = .kEnd := by
  unfold Tokenizer.current
  cases t.type_ <;> simp

theorem Consume_of_End {t : Tokenizer} (hs : t.Settled) (h : t.current = .End) :
    t.Consume.current = .End :=
  (Consume_current_of_in_nil (hs ((current_eq_End_iff t).1 h))).1

theorem iterate_Consume_settled (input : List Char) (k : Nat) :
    (Tokenizer.Consume^[k] (Tokenizer.new input)).Settled := by
  cases k with
  | zero => exact Consume_settled _
  | succ k =>
    rw [Function.iterate_succ_apply']
    exact Consume_settled _

/-- C14: the tokenizer reads a maximal digit run as one `Number` and loses no
character after it. When the unread input begins with a digit, `Consume`
produces `Number v`, `v` being the decimal value of the longest prefix of
digits reduced to signed 64 bits, and leaves unread exactly what follows that
prefix, so the next `Consume` starts at the first non-digit; `007` gives 7 and
`12+3` yields `Number 12`, `Symbol +`, `Number 3`, `End`. -/
theorem maximal_digit_run (t : Tokenizer) (c : Char) (cs : List Char)
    (hin : t.in_ = c :: cs) (hc : isDigit c = true) :
    t.Consume.current = .Number (wrap64 (decimalValue (t.in_.takeWhile isDigit))) ∧
      t.Consume.in_ = t.in_.dropWhile isDigit ∧
      NoDigitAhead t.Consume.in_ ∧
      t.Consume.Consume = t.Consume.consumeLoop (t.in_.dropWhile isDigit) false 0 ∧
      (Tokenizer.new "007".toList).current = .Number 7 ∧
      Shows (Tokenizer.new "12+3".toList) [.Number 12, .Symbol '+', .Number 3] := by
  have h := Consume_literal t [] (t.in_.takeWhile isDigit) (t.in_.dropWhile isDigit)
    (by simp) (by rw [hin]; exact takeWhile_isDigit_isLiteral cs hc)
    (noDigitAhead_dropWhile _) (by simp)
  have hi : t.Consume.in_ = t.in_.dropWhile isDigit := by rw [h]
  refine ⟨by rw [h]; rfl, hi, ?_, ?_, by decide, ⟨by decide, by decide, by decide,
    (by decide : (Tokenizer.new "12+3".toList).Consume.Consume.Consume.current = .End)⟩⟩
  · rw [hi]; exact noDigitAhead_dropWhile _
  · rw [Tokenizer.Consume.eq_def t.Consume, hi]

theorem maximal_digit_run_witness :
    (Tokenizer.new "+120034,5".toList).Consume.current = .Number 120034 ∧
      (Tokenizer.new "+120034,5".toList).Consume.in_ = ",5".toList :=
  ⟨(maximal_digit_run (Tokenizer.new "+120034,5".toList) '1' "20034,5".toList
      (by decide) (by decide)).1,
    (maximal_digit_run (Tokenizer.new "+120034,5".toList) '1' "20034,5".toList
      (by decide) (by decide)).2.1⟩

/-- C17: every `Symbol` token the tokenizer produces carries one of the six grammar
characters, and `End` is final. After construction and after every `Consume`, a
current token of type `Symbol` holds one of `+ - * / ( )`; once the current
token is `End`, it is `End` after every further `Consume`. -/
theorem symbol_tokens_are_grammar (input : List Char) (k : Nat) :
    ((Tokenizer.Consume^[k] (Tokenizer.new input)).type_ = .kSymbol →
        (Tokenizer.Consume^[k] (Tokenizer.new input)).symbol_ ∈ ['+', '-', '*', '/', '(', ')']) ∧
      ((Tokenizer.Consume^[k] (Tokenizer.new input)).current = .End →
        ∀ j : Nat, (Tokenizer.Consume^[k + j] (Tokenizer.new input)).current = .End) := by
  constructor
  · intro h
    have hg : isGrammarSymbol (Tokenizer.Consume^[k] (Tokenizer.new input)).symbol_ = true := by
      cases k with
      | zero => exact consumeLoop_symbol_grammar _ _ _ _ h
      | succ k =>
        rw [Function.iterate_succ_apply'] at h ⊢
        exact consumeLoop_symbol_grammar _ _ _ _ h
    unfold isGrammarSymbol at hg
    simp only [Bool.or_eq_true, beq_iff_eq] at hg
    simp only [List.mem_cons, List.mem_singleton]
    tauto
  · intro h j
    induction j with
    | zero => exact h
    | succ j ih =>
      rw [← Nat.add_assoc, Function.iterate_succ_apply']
      exact Consume_of_End (iterate_Consume_settled input (k + j)) ih

theorem symbol_tokens_are_grammar_witness :
    (Tokenizer.Consume^[1] (Tokenizer.new "2 x* 3".toList)).symbol_ ∈
        ['+', '-', '*', '/', '(', ')'] ∧
      (Tokenizer.Consume^[3 + 4] (Tokenizer.new "2 x* 3".toList)).current = .End :=
  ⟨(symbol_tokens_are_grammar "2 x* 3".toList 1).1 (by decide),
    (symbol_tokens_are_grammar "2 x* 3".toList 3).2 (by decide) 4⟩

/-! ### Failures and termination -/

theorem isSyntaxError_iff (e : Error) :
    e.isSyntaxError = true ↔ e = .invalidFactor ∨ e = .invalidFactorMinus := by
  cases e <;> simp [Error.isSyntaxError]

theorem Evaluate_error_eq (e : Expression) :
    ∀ err, e.Evaluate = .error err → err = .divisionByZero ∨ err = .divisionOverflow := by
  induction e with
  | Constant v n =>
    intro err h
    rw [Evaluate_constant] at h
    cases h
  | Operation op l r n ihl ihr =>
    intro err h
    cases hl : l.Evaluate with
    | error e1 =>
      rw [Evaluate_left_error op r n hl] at h
      cases h
      exact ihl _ hl
    | ok lv =>
      cases hr : r.Evaluate with
      | error e1 =>
        rw [Evaluate_right_error op n hl hr] at h
        cases h
        exact ihr _ hr
      | ok rv =>
        by_cases h1 : op = '+'
        · subst h1
          rw [Evaluate_add n hl hr] at h
          cases h
        by_cases h2 : op = '-'
        · subst h2
          rw [Evaluate_sub n hl hr] at h
          cases h
        by_cases h3 : op = '*'
        · subst h3
          rw [Evaluate_mul n hl hr] at h
          cases h
        by_cases h4 : op = '/'
        · subst h4
          by_cases h0 : rv = 0
          · subst h0
            rw [Evaluate_div_zero n hl hr] at h
            cases h
            exact Or.inl rfl
          · by_cases ho : lv = -9223372036854775808 ∧ rv = -1
            · obtain ⟨ho1, ho2⟩ := ho
              subst ho1; subst ho2
              rw [Evaluate_div_overflow n hl hr] at h
              cases h
              exact Or.inr rfl
            · rw [Evaluate_div n hl hr h0 ho] at h
              cases h
        · rw [Evaluate_other n hl hr ⟨h1, h2, h3, h4⟩] at h
          cases h

/-- C15: the type-mismatch failures are unreachable from the parser. The guards
under which the parser calls `GetNumber` and `GetSymbol` make those calls
succeed, so the conditions of the parser never fail, and for every tokenizer
state and budget the only failures of `ReadFactor`, `ReadTerm`,
`ReadExpression`, their loops and `ParseExpression` are "invalid factor" and
"invalid factor minus", never "current token not number" or "current token not
symbol". -/
theorem type_mismatch_unreachable (f : Nat) (t : Tokenizer) :
    (t.GetType = .kNumber → ∃ n, t.GetNumber = .ok n) ∧
      (t.GetType = .kSymbol → ∃ c, t.GetSymbol = .ok c) ∧
      (∀ c, ∃ b, t.symbolIs c = .ok b) ∧
      (∀ c d, ∃ b, t.symbolIsEither c d = .ok b) ∧
      (∀ e, ReadFactor f t = .error e → e = .invalidFactor ∨ e = .invalidFactorMinus) ∧
      (∀ node e, ReadTermLoop f node t = .error e →
        e = .invalidFactor ∨ e = .invalidFactorMinus) ∧
      (∀ e, ReadTerm f t = .error e → e = .invalidFactor ∨ e = .invalidFactorMinus) ∧
      (∀ node e, ReadExpressionLoop f node t = .error e →
        e = .invalidFactor ∨ e = .invalidFactorMinus) ∧
      (∀ e, ReadExpression f t = .error e → e = .invalidFactor ∨ e = .invalidFactorMinus) ∧
      (∀ e, ParseExpression t = .error e → e = .invalidFactor ∨ e = .invalidFactorMinus) ∧
      ParseExpression t ≠ .error .notNumber ∧
      ParseExpression t ≠ .error .notSymbol := by
  obtain ⟨hF, hTL, hT, hEL, hE⟩ := parse_error_is_syntactic f
  have hP : ∀ e, ParseExpression t = .error e → e = .invalidFactor ∨ e = .invalidFactorMinus :=
    fun e h => (isSyntaxError_iff e).1 ((parse_error_is_syntactic _).2.2.2.2 t e h)
  refine ⟨?_, ?_, fun c => ⟨_, symbolIs_eq t c⟩, fun c d => ⟨_, symbolIsEither_eq t c d⟩,
    fun e h => (isSyntaxError_iff e).1 (hF t e h),
    fun node e h => (isSyntaxError_iff e).1 (hTL node t e h),
    fun e h => (isSyntaxError_iff e).1 (hT t e h),
    fun node e h => (isSyntaxError_iff e).1 (hEL node t e h),
    fun e h => (isSyntaxError_iff e).1 (hE t e h), hP, ?_, ?_⟩
  · intro h
    obtain ⟨n, hn⟩ := (GetType_eq_kNumber_iff t).1 h
    exact ⟨n, GetNumber_of_current hn⟩
  · intro h
    refine ⟨t.symbol_, ?_⟩
    unfold Tokenizer.GetType at h
    unfold Tokenizer.GetSymbol
    simp [h]
  · intro h
    rcases hP _ h with h1 | h1 <;> cases h1
  · intro h
    rcases hP _ h with h1 | h1 <;> cases h1

theorem type_mismatch_unreachable_witness :
    (∃ n, (Tokenizer.new "7)".toList).GetNumber = .ok n) ∧
      ParseExpression (Tokenizer.new "2*(-+".toList) ≠ .error .notSymbol :=
  ⟨(type_mismatch_unreachable 0 (Tokenizer.new "7)".toList)).1 (by decide),
    (type_mismatch_unreachable 0 (Tokenizer.new "2*(-+".toList)).2.2.2.2.2.2.2.2.2.2.2⟩

/-- C16: applying unary minus to a node negates its value and is an involution.
For every tree `e` of 64-bit constants, with any flag, `Evaluate` after
`ApplyMinus` fails exactly when `Evaluate` of `e` fails (with the same failure)
and otherwise returns the 64-bit negation of the value of `e`; `ApplyMinus`
twice gives back `e`, and `ApplyMinus` changes neither the depth nor the
children of the tree. -/
theorem apply_minus_involution (e : Expression) (hw : e.WF) :
    (∀ err, e.ApplyMinus.Evaluate = .error err ↔ e.Evaluate = .error err) ∧
      (∀ v, e.Evaluate = .ok v → e.ApplyMinus.Evaluate = .ok (wrap64 (-v))) ∧
      e.ApplyMinus.ApplyMinus = e ∧
      e.ApplyMinus.depth = e.depth ∧
      e.ApplyMinus.children = e.children := by
  refine ⟨?_, fun v hv => Evaluate_ApplyMinus hw hv, ?_, ?_, ?_⟩
  · intro err
    cases e with
    | Constant c n =>
      rw [Expression.ApplyMinus, Evaluate_constant, Evaluate_constant]
      constructor <;> intro h <;> cases h
    | Operation op l r n =>
      rw [Expression.ApplyMinus]
      rcases Evaluate_operation_flag op l r with ⟨e0, he⟩ | ⟨res, -, he⟩
      · rw [he, he]
      · rw [he, he]
        constructor <;> intro h <;> cases h
  · cases e with
    | Constant c n => cases n <;> rfl
    | Operation op l r n => cases n <;> rfl
  · cases e <;> rfl
  · cases e <;> rfl

theorem apply_minus_involution_witness :
    (Expression.Operation '/' (.Constant 7 true) (.Constant 2 false) true).ApplyMinus.Evaluate =
        .ok (wrap64 (-3)) ∧
      (Expression.Operation '/' (.Constant 7 true) (.Constant 2 false)
        true).ApplyMinus.ApplyMinus =
        .Operation '/' (.Constant 7 true) (.Constant 2 false) true :=
  ⟨(apply_minus_involution (.Operation '/' (.Constant 7 true) (.Constant 2 false) true)
      (operation_wf '/' true (show InInt64 7 by decide) (show InInt64 2 by decide))).2.1 3
      (by decide),
    (apply_minus_involution (.Operation '/' (.Constant 7 true) (.Constant 2 false) true)
      (operation_wf '/' true (show InInt64 7 by decide) (show InInt64 2 by decide))).2.2.1⟩

/-- C18: parsing and evaluation terminate on every input. `ParseExpression`
returns a tree or a failure for every tokenizer state: its budget never runs
out, and every budget of at least three calls per pending token gives the same
result. The bound holds because the number of pending tokens, at most one more
than the number of unread characters, drops with every `Consume` at a token
other than `End`, which precedes the recursive call of `ReadFactor` and every
loop iteration, and every successful `ReadFactor` has consumed a token.
`Evaluate`, a recursion on the tree, ends on every tree: with a value, with
DivisionByZero, or at the trapping division of `-2^63` by `-1`, as on the tree of
`(0-9223372036854775807-1)/(0-1)`. -/
theorem parsing_terminates (t : Tokenizer) :
    ((∃ e u, ParseExpression t = .ok (e, u)) ∨ (∃ err, ParseExpression t = .error err)) ∧
      (∀ f, 3 * t.pending + 3 ≤ f → ReadExpression f t = ParseExpression t) ∧
      t.pending ≤ t.in_.length + 1 ∧
      (t.current ≠ .End → t.Consume.pending < t.pending) ∧
      (∀ f e u, ReadFactor f t = .ok (e, u) → u.pending < t.pending) ∧
      (∀ e : Expression, (∃ v, e.Evaluate = .ok v) ∨ e.Evaluate = .error .divisionByZero ∨
        e.Evaluate = .error .divisionOverflow) ∧
      (Expression.Operation '/'
        (.Operation '-' (.Operation '-' (.Constant 0 false)
          (.Constant 9223372036854775807 false) false) (.Constant 1 false) false)
        (.Operation '-' (.Constant 0 false) (.Constant 1 false) false) false).Evaluate =
        .error .divisionOverflow := by
  refine ⟨?_, ?_, ?_, fun h => Consume_pending_lt h,
    fun f e u h => (pending_decreases f).1 t e u h, ?_, by decide⟩
  · cases h : ParseExpression t with
    | ok p => exact Or.inl ⟨p.1, p.2, rfl⟩
    | error err => exact Or.inr ⟨err, rfl⟩
    | outOfFuel => exact absurd h (ParseExpression_ne_outOfFuel t)
  · intro f hf
    exact (ParseExpression_eq_of_fuel f ((fuel_enough f).2.2.2.2 t hf)).symm
  · unfold Tokenizer.pending
    split <;> omega
  · intro e
    cases h : e.Evaluate with
    | ok v => exact Or.inl ⟨v, rfl⟩
    | error err =>
      rcases Evaluate_error_eq e err h with h1 | h1
      · rw [h1]; exact Or.inr (Or.inl rfl)
      · rw [h1]; exact Or.inr (Or.inr rfl)

theorem parsing_terminates_witness :
    ReadExpression 100 (Tokenizer.new "((1+2)*3".toList) =
        ParseExpression (Tokenizer.new "((1+2)*3".toList) ∧
      (Tokenizer.new "((1+2)*3".toList).Consume.pending <
        (Tokenizer.new "((1+2)*3".toList).pending :=
  ⟨(parsing_terminates (Tokenizer.new "((1+2)*3".toList)).2.1 100 (by decide),
    (parsing_terminates (Tokenizer.new "((1+2)*3".toList)).2.2.2.1 (by decide)⟩

/-! ### The tokenizer a parsing function leaves behind -/

theorem ReadFactor_settled {f : Nat} {t : Tokenizer} {e : Expression} {u : Tokenizer}
    (h : ReadFactor f t = .ok (e, u)) : u.Settled := by
  cases f with
  | zero => rw [ReadFactor] at h; cases h
  | succ f =>
    rw [ReadFactor_succ] at h
    cases hc : t.current with
    | Number n =>
      simp only [hc, Result.ok.injEq, Prod.mk.injEq] at h
      rw [← h.2]; exact Consume_settled _
    | End => simp [hc] at h
    | Symbol c =>
      simp only [hc] at h
      by_cases hm : c = '-'
      · simp only [hm, if_true] at h
        cases hc1 : t.Consume.current with
        | Number n =>
          simp only [hc1, Result.ok.injEq, Prod.mk.injEq] at h
          rw [← h.2]; exact Consume_settled _
        | End => simp [hc1] at h
        | Symbol d =>
          simp only [hc1] at h
          by_cases hd : d = '('
          · simp only [hd, if_true] at h
            cases hr : ReadExpression f t.Consume.Consume with
            | ok p =>
              simp only [hr, Result.ok.injEq, Prod.mk.injEq] at h
              rw [← h.2]; exact Consume_settled _
            | error e => simp [hr] at h
            | outOfFuel => simp [hr] at h
          · simp [hd] at h
      · by_cases hd : c = '('
        · subst hd
          simp only [show ¬ ('(' = '-') by decide, if_true, if_false] at h
          cases hr : ReadExpression f t.Consume with
          | ok p =>
            simp only [hr, Result.ok.injEq, Prod.mk.injEq] at h
            rw [← h.2]; exact Consume_settled _
          | error e => simp [hr] at h
          | outOfFuel => simp [hr] at h
        · simp [hm, hd] at h

theorem ReadTermLoop_settled {f : Nat} {node : Expression} {t : Tokenizer} {e : Expression}
    {u : Tokenizer} (ht : t.Settled) (h : ReadTermLoop f node t = .ok (e, u)) : u.Settled := by
  induction f generalizing node t with
  | zero => rw [ReadTermLoop] at h; cases h
  | succ f ih =>
    rw [ReadTermLoop_succ] at h
    cases hc : t.current with
    | Number n => simp only [hc, Result.ok.injEq, Prod.mk.injEq] at h; rw [← h.2]; exact ht
    | End => simp only [hc, Result.ok.injEq, Prod.mk.injEq] at h; rw [← h.2]; exact ht
    | Symbol c =>
      simp only [hc] at h
      by_cases hm : c = '*' ∨ c = '/'
      · simp only [hm, if_true] at h
        cases hr : ReadFactor f t.Consume with
        | ok p =>
          obtain ⟨right, t1⟩ := p
          simp only [hr] at h
          exact ih (ReadFactor_settled hr) h
        | error e => simp [hr] at h
        | outOfFuel => simp [hr] at h
      · simp only [hm, if_false, Result.ok.injEq, Prod.mk.injEq] at h; rw [← h.2]; exact ht

theorem ReadTerm_settled {f : Nat} {t : Tokenizer} {e : Expression} {u : Tokenizer}
    (h : ReadTerm f t = .ok (e, u)) : u.Settled := by
  cases f with
  | zero => rw [ReadTerm] at h; cases h
  | succ f =>
    rw [ReadTerm_succ] at h
    cases hr : ReadFactor f t with
    | ok p =>
      obtain ⟨node, t1⟩ := p
      simp only [hr] at h
      exact ReadTermLoop_settled (ReadFactor_settled hr) h
    | error e => simp [hr] at h
    | outOfFuel => simp [hr] at h

theorem ReadExpressionLoop_settled {f : Nat} {node : Expression} {t : Tokenizer}
    {e : Expression} {u : Tokenizer} (ht : t.Settled)
    (h : ReadExpressionLoop f node t = .ok (e, u)) : u.Settled := by
  induction f generalizing node t with
  | zero => rw [ReadExpressionLoop] at h; cases h
  | succ f ih =>
    rw [ReadExpressionLoop_succ] at h
    cases hc : t.current with
    | Number n => simp only [hc, Result.ok.injEq, Prod.mk.injEq] at h; rw [← h.2]; exact ht
    | End => simp only [hc, Result.ok.injEq, Prod.mk.injEq] at h; rw [← h.2]; exact ht
    | Symbol c =>
      simp only [hc] at h
      by_cases hm : c = '+' ∨ c = '-'
      · simp only [hm, if_true] at h
        cases hr : ReadTerm f t.Consume with
        | ok p =>
          obtain ⟨right, t1⟩ := p
          simp only [hr] at h
          exact ih (ReadTerm_settled hr) h
        | error e => simp [hr] at h
        | outOfFuel => simp [hr] at h
      · simp only [hm, if_false, Result.ok.injEq, Prod.mk.injEq] at h; rw [← h.2]; exact ht

theorem ReadExpression_settled {f : Nat} {t : Tokenizer} {e : Expression} {u : Tokenizer}
    (h : ReadExpression f t = .ok (e, u)) : u.Settled := by
  cases f with
  | zero => rw [ReadExpression] at h; cases h
  | succ f =>
    rw [ReadExpression_succ] at h
    cases hr : ReadTerm f t with
    | ok p =>
      obtain ⟨node, t1⟩ := p
      simp only [hr] at h
      exact ReadExpressionLoop_settled (ReadTerm_settled hr) h
    | error e => simp [hr] at h
    | outOfFuel => simp [hr] at h

/-- C13: the closing parenthesis is consumed without being checked. After `(`
(or `-` `(`) and an inner expression, `ReadFactor` applies one `Consume` to
whatever tokenizer the inner expression left, without looking at its token, and
returns the inner expression (negated after `-`); at `End` that `Consume` leaves
`End`. Hence if parsing `s` succeeds with tree `e` and lookahead `End`, parsing
`(` followed by `s` succeeds with the same tree and lookahead `End`; `(2+3`
evaluates to 5 and `(2 3)` to 2. -/
theorem closing_paren_unchecked (t : Tokenizer) (f : Nat) (res : Expression)
    (t2 : Tokenizer) :
    (t.current = .Symbol '(' → ReadExpression f t.Consume = .ok (res, t2) →
        ReadFactor (f + 1) t = .ok (res, t2.Consume) ∧
        (t2.current = .End → t2.Consume.current = .End)) ∧
      (t.current = .Symbol '-' → t.Consume.current = .Symbol '(' →
        ReadExpression f t.Consume.Consume = .ok (res, t2) →
        ReadFactor (f + 1) t = .ok (res.ApplyMinus, t2.Consume) ∧
        (t2.current = .End → t2.Consume.current = .End)) ∧
      (∀ (s : List Char) (e : Expression) (u : Tokenizer),
        ParseExpression (Tokenizer.new s) = .ok (e, u) → u.current = .End →
        ∃ u', ParseExpression (Tokenizer.new ('(' :: s)) = .ok (e, u') ∧ u'.current = .End) ∧
      EvaluateExpression "(2+3".toList = .ok 5 ∧
      EvaluateExpression "(2 3)".toList = .ok 2 := by
  refine ⟨?_, ?_, ?_, by decide, by decide⟩
  · intro hc hr
    refine ⟨?_, fun hE => Consume_of_End (ReadExpression_settled hr) hE⟩
    rw [ReadFactor_paren f hc, hr]
  · intro hc hc1 hr
    refine ⟨?_, fun hE => Consume_of_End (ReadExpression_settled hr) hE⟩
    rw [ReadFactor_succ, hc]
    simp only [if_true, hc1, hr]
  · intro s e u hp hu
    have h0 : Tokenizer.new ('(' :: s) =
        { in_ := s, type_ := .kSymbol, number_ := 0, symbol_ := '(' } := by
      unfold Tokenizer.new
      rw [Consume_symbol _ [] '(' s (by simp) (by decide) (by simp)]
    have hrel : NoiseRel (Tokenizer.new s) (Tokenizer.new ('(' :: s)).Consume := by
      rw [h0]
      exact @Consume_noiseRel { in_ := s, type_ := .kEnd, number_ := 0, symbol_ := '\x00' }
        { in_ := s, type_ := .kSymbol, number_ := 0, symbol_ := '(' } (Or.inl rfl)
    have hsim := (parse_sim noiseRel_sim (parseFuel (Tokenizer.new s))).2.2.2.2 _ _ hrel
    have hp' : ReadExpression (parseFuel (Tokenizer.new s)) (Tokenizer.new s) = .ok (e, u) := hp
    rw [hp'] at hsim
    cases hr : ReadExpression (parseFuel (Tokenizer.new s))
        (Tokenizer.new ('(' :: s)).Consume with
    | error err => rw [hr] at hsim; exact absurd hsim (by simp [ResultSim])
    | outOfFuel => rw [hr] at hsim; exact absurd hsim (by simp [ResultSim])
    | ok q =>
      obtain ⟨e', u'⟩ := q
      rw [hr] at hsim
      obtain ⟨he, hu'⟩ : e = e' ∧ NoiseRel u u' := hsim
      subst he
      have hend : u'.Consume.current = .End :=
        Consume_of_End (ReadExpression_settled hr) (hu'.1 ▸ hu)
      have hc0 : (Tokenizer.new ('(' :: s)).current = .Symbol '(' := by
        rw [h0]; rfl
      have hparse : ReadExpression (parseFuel (Tokenizer.new s) + 1 + 1 + 1)
          (Tokenizer.new ('(' :: s)) = .ok (e, u'.Consume) := by
        rw [ReadExpression_succ, ReadTerm_succ, ReadFactor_paren _ hc0, hr]
        simp only []
        rw [ReadTermLoop_stop _ _ (by simp [hend])]
        simp only []
        rw [ReadExpressionLoop_stop _ _ (by simp [hend])]
      refine ⟨u'.Consume, ?_, hend⟩
      rw [ParseExpression_eq_of_fuel _ (by rw [hparse]; simp), hparse]

theorem closing_paren_unchecked_witness :
    ReadFactor (6 + 1) (Tokenizer.new "(4*5 6".toList) =
        .ok (.Operation '*' (.Constant 4 false) (.Constant 5 false) false,
          (Tokenizer.Consume
            { in_ := [], type_ := .kNumber, number_ := 6, symbol_ := '*' })) ∧
      (∃ u', ParseExpression (Tokenizer.new ('(' :: "(4*5".toList)) =
        .ok (.Operation '*' (.Constant 4 false) (.Constant 5 false) false, u') ∧
        u'.current = .End) :=
  ⟨((closing_paren_unchecked (Tokenizer.new "(4*5 6".toList) 6
      (.Operation '*' (.Constant 4 false) (.Constant 5 false) false)
      { in_ := [], type_ := .kNumber, number_ := 6, symbol_ := '*' }).1
      (by decide) (by decide)).1,
    (closing_paren_unchecked (Tokenizer.new "".toList) 0 (.Constant 0 false)
      (Tokenizer.new "".toList)).2.2.1 "(4*5".toList
      (.Operation '*' (.Constant 4 false) (.Constant 5 false) false)
      { in_ := [], type_ := .kEnd, number_ := 5, symbol_ := '*' } (by decide) (by decide)⟩

/-! ### Appending characters to the input -/

theorem consumeLoop_true_number (t : Tokenizer) (cs : List Char) (res : Int) :
    ∃ m, (t.consumeLoop cs true res).current = .Number m := by
  induction cs generalizing res with
  | nil => exact ⟨res, by simp [Tokenizer.consumeLoop, Tokenizer.current]⟩
  | cons c cs ih =>
    rw [Tokenizer.consumeLoop]
    simp only [if_true]
    by_cases hd : isDigit c = true
    · simp only [hd, if_true]
      exact ih _
    · simp only [hd, if_false]
      exact ⟨res, rfl⟩

theorem consumeLoop_suffix (x : List Char) (t t' : Tokenizer) (cs : List Char) (b : Bool)
    (res : Int) :
    (t.consumeLoop cs b res).current = .End ∨
      SuffixExt x (t.consumeLoop cs b res) (t'.consumeLoop (cs ++ x) b res) := by
  induction cs generalizing b res with
  | nil =>
    cases b
    · left
      simp [Tokenizer.consumeLoop, Tokenizer.current]
    · right; right
      obtain ⟨m, hm⟩ := consumeLoop_true_number t' x res
      rw [List.nil_append]
      exact ⟨by simp [Tokenizer.consumeLoop], res, m,
        by simp [Tokenizer.consumeLoop, Tokenizer.current], hm⟩
  | cons c cs ih =>
    rw [List.cons_append, Tokenizer.consumeLoop, Tokenizer.consumeLoop]
    cases b
    · simp only [Bool.false_eq_true, if_false]
      by_cases hd : isDigit c = true
      · simp only [hd, if_true]
        exact ih _ _
      · simp only [hd, if_false]
        by_cases hg : isGrammarSymbol c = true
        · simp only [hg, Bool.not_true, Bool.false_eq_true, if_false]
          right; left
          exact ⟨rfl, rfl⟩
        · simp only [hg, Bool.not_false, if_true]
          exact ih _ _
    · simp only [if_true]
      by_cases hd : isDigit c = true
      · simp only [hd, if_true]
        exact ih _ _
      · simp only [hd, if_false]
        right; left
        exact ⟨rfl, rfl⟩

theorem Consume_suffix {x : List Char} {t t' : Tokenizer} (h : SuffixExt x t t')
    (hne : t.Consume.current ≠ .End) : SuffixExt x t.Consume t'.Consume := by
  rcases h with ⟨hin, _⟩ | ⟨hin, _⟩
  · have := consumeLoop_suffix x t t' t.in_ false 0
    unfold Tokenizer.Consume at hne ⊢
    rw [hin]
    rcases this with h1 | h1
    · exact absurd h1 hne
    · exact h1
  · exact absurd (Consume_current_of_in_nil hin).1 hne

theorem suffix_symbol {x : List Char} {t t' : Tokenizer} {c : Char} (h : SuffixExt x t t')
    (hc : t.current = .Symbol c) : t'.current = .Symbol c := by
  rcases h with ⟨_, hcur⟩ | ⟨_, n, m, hn, _⟩
  · rw [hcur, hc]
  · rw [hc] at hn; cases hn

theorem suffix_number {x : List Char} {t t' : Tokenizer} {n : Int} (h : SuffixExt x t t')
    (hc : t.current = .Number n) (hne : t.Consume.current ≠ .End) :
    t'.current = .Number n := by
  rcases h with ⟨_, hcur⟩ | ⟨hin, _⟩
  · rw [hcur, hc]
  · exact absurd (Consume_current_of_in_nil hin).1 hne

theorem suffix_number_type {x : List Char} {t t' : Tokenizer} {n : Int}
    (h : SuffixExt x t t') (hc : t.current = .Number n) : ∃ m, t'.current = .Number m := by
  rcases h with ⟨_, hcur⟩ | ⟨_, _, m, _, hm⟩
  · exact ⟨n, by rw [hcur, hc]⟩
  · exact ⟨m, hm⟩

theorem ReadFactor_End {f : Nat} {t : Tokenizer} (h : t.current = .End)
    (p : Expression × Tokenizer) : ReadFactor f t ≠ .ok p := by
  cases f with
  | zero => rw [ReadFactor]; simp
  | succ f => rw [ReadFactor_succ, h]; simp

theorem ReadTerm_End {f : Nat} {t : Tokenizer} (h : t.current = .End)
    (p : Expression × Tokenizer) : ReadTerm f t ≠ .ok p := by
  cases f with
  | zero => rw [ReadTerm]; simp
  | succ f =>
    rw [ReadTerm_succ]
    cases hr : ReadFactor f t with
    | ok q => exact absurd hr (ReadFactor_End h q)
    | error e => simp
    | outOfFuel => simp

theorem ReadExpression_End {f : Nat} {t : Tokenizer} (h : t.current = .End)
    (p : Expression × Tokenizer) : ReadExpression f t ≠ .ok p := by
  cases f with
  | zero => rw [ReadExpression]; simp
  | succ f =>
    rw [ReadExpression_succ]
    cases hr : ReadTerm f t with
    | ok q => exact absurd hr (ReadTerm_End h q)
    | error e => simp
    | outOfFuel => simp

theorem ReadTermLoop_at_End {f : Nat} {node e : Expression} {t w : Tokenizer}
    (h : ReadTermLoop f node t = .ok (e, w)) (hc : t.current = .End) : w.current = .End := by
  cases f with
  | zero => rw [ReadTermLoop] at h; cases h
  | succ f =>
    rw [ReadTermLoop_succ, hc] at h
    simp only [Result.ok.injEq, Prod.mk.injEq] at h
    rw [← h.2]; exact hc

theorem ReadExpressionLoop_at_End {f : Nat} {node e : Expression} {t w : Tokenizer}
    (h : ReadExpressionLoop f node t = .ok (e, w)) (hc : t.current = .End) :
    w.current = .End := by
  cases f with
  | zero => rw [ReadExpressionLoop] at h; cases h
  | succ f =>
    rw [ReadExpressionLoop_succ, hc] at h
    simp only [Result.ok.injEq, Prod.mk.injEq] at h
    rw [← h.2]; exact hc

/-- A parse that returns before the end of its input is repeated, with the same
tree, on that input followed by more characters. -/
theorem suffix_parse (x : List Char) (f : Nat) :
    (∀ t t' e w, SuffixExt x t t' → ReadFactor f t = .ok (e, w) → w.current ≠ .End →
      ∃ w', ReadFactor f t' = .ok (e, w') ∧ SuffixExt x w w') ∧
    (∀ node t t' e w, SuffixExt x t t' → ReadTermLoop f node t = .ok (e, w) →
      w.current ≠ .End → ∃ w', ReadTermLoop f node t' = .ok (e, w') ∧ SuffixExt x w w') ∧
    (∀ t t' e w, SuffixExt x t t' → ReadTerm f t = .ok (e, w) → w.current ≠ .End →
      ∃ w', ReadTerm f t' = .ok (e, w') ∧ SuffixExt x w w') ∧
    (∀ node t t' e w, SuffixExt x t t' → ReadExpressionLoop f node t = .ok (e, w) →
      w.current ≠ .End → ∃ w', ReadExpressionLoop f node t' = .ok (e, w') ∧
        SuffixExt x w w') ∧
    (∀ t t' e w, SuffixExt x t t' → ReadExpression f t = .ok (e, w) → w.current ≠ .End →
      ∃ w', ReadExpression f t' = .ok (e, w') ∧ SuffixExt x w w') := by
  induction f with
  | zero =>
    refine ⟨fun t t' e w _ h => ?_, fun node t t' e w _ h => ?_, fun t t' e w _ h => ?_,
      fun node t t' e w _ h => ?_, fun t t' e w _ h => ?_⟩
    · rw [ReadFactor] at h; cases h
    · rw [ReadTermLoop] at h; cases h
    · rw [ReadTerm] at h; cases h
    · rw [ReadExpressionLoop] at h; cases h
    · rw [ReadExpression] at h; cases h
  | succ f ih =>
    obtain ⟨ihF, ihTL, ihT, ihEL, ihE⟩ := ih
    -- the closing `Consume` of a parenthesised factor
    have paren : ∀ (t1 t1' : Tokenizer) (res : Expression) (t2 w : Tokenizer),
        SuffixExt x t1 t1' → ReadExpression f t1.Consume = .ok (res, t2) →
        t2.Consume = w → w.current ≠ .End →
        ∃ t2', ReadExpression f t1'.Consume = .ok (res, t2') ∧
          SuffixExt x w t2'.Consume := by
      intro t1 t1' res t2 w h1 hr hw2 hw
      subst hw2
      have hne1 : t1.Consume.current ≠ .End := fun hE => ReadExpression_End hE _ hr
      have hne2 : t2.current ≠ .End :=
        fun hE => hw (Consume_of_End (ReadExpression_settled hr) hE)
      obtain ⟨t2', hr', h2⟩ := ihE _ _ _ _ (Consume_suffix h1 hne1) hr hne2
      exact ⟨t2', hr', Consume_suffix h2 hw⟩
    refine ⟨fun t t' e w hrel h hw => ?_, fun node t t' e w hrel h hw => ?_,
      fun t t' e w hrel h hw => ?_, fun node t t' e w hrel h hw => ?_,
      fun t t' e w hrel h hw => ?_⟩
    · rw [ReadFactor_succ] at h ⊢
      cases hc : t.current with
      | Number n =>
        simp only [hc, Result.ok.injEq, Prod.mk.injEq] at h
        obtain ⟨he, hw2⟩ := h
        subst he; subst hw2
        rw [suffix_number hrel hc hw]
        exact ⟨t'.Consume, rfl, Consume_suffix hrel hw⟩
      | End => simp [hc] at h
      | Symbol c =>
        simp only [hc] at h
        rw [suffix_symbol hrel hc]
        simp only []
        by_cases hm : c = '-'
        · simp only [hm, if_true] at h ⊢
          cases hc1 : t.Consume.current with
          | Number n =>
            simp only [hc1, Result.ok.injEq, Prod.mk.injEq] at h
            obtain ⟨he, hw2⟩ := h
            subst he; subst hw2
            have h1 : SuffixExt x t.Consume t'.Consume :=
              Consume_suffix hrel (by rw [hc1]; simp)
            rw [suffix_number h1 hc1 hw]
            exact ⟨t'.Consume.Consume, rfl, Consume_suffix h1 hw⟩
          | End => simp [hc1] at h
          | Symbol d =>
            simp only [hc1] at h
            have h1 : SuffixExt x t.Consume t'.Consume :=
              Consume_suffix hrel (by rw [hc1]; simp)
            rw [suffix_symbol h1 hc1]
            simp only []
            by_cases hd : d = '('
            · simp only [hd, if_true] at h ⊢
              cases hr : ReadExpression f t.Consume.Consume with
              | ok p =>
                obtain ⟨res, t2⟩ := p
                simp only [hr, Result.ok.injEq, Prod.mk.injEq] at h
                obtain ⟨he, hw2⟩ := h
                subst he
                obtain ⟨t2', hr', h2⟩ := paren _ _ _ _ _ h1 hr hw2 hw
                rw [hr']
                exact ⟨t2'.Consume, rfl, h2⟩
              | error e => simp [hr] at h
              | outOfFuel => simp [hr] at h
            · simp [hd] at h
        · by_cases hd : c = '('
          · subst hd
            simp only [show ¬ ('(' = '-') by decide, if_true, if_false] at h ⊢
            cases hr : ReadExpression f t.Consume with
            | ok p =>
              obtain ⟨res, t2⟩ := p
              simp only [hr, Result.ok.injEq, Prod.mk.injEq] at h
              obtain ⟨he, hw2⟩ := h
              subst he
              obtain ⟨t2', hr', h2⟩ := paren _ _ _ _ _ hrel hr hw2 hw
              rw [hr']
              exact ⟨t2'.Consume, rfl, h2⟩
            | error e => simp [hr] at h
            | outOfFuel => simp [hr] at h
          · simp [hm, hd] at h
    · rw [ReadTermLoop_succ] at h ⊢
      cases hc : t.current with
      | Number n =>
        simp only [hc, Result.ok.injEq, Prod.mk.injEq] at h
        obtain ⟨he, hw2⟩ := h
        subst he; subst hw2
        obtain ⟨m, hm⟩ := suffix_number_type hrel hc
        rw [hm]
        exact ⟨t', rfl, hrel⟩
      | End =>
        simp only [hc, Result.ok.injEq, Prod.mk.injEq] at h
        exact absurd (h.2 ▸ hc) hw
      | Symbol c =>
        simp only [hc] at h
        rw [suffix_symbol hrel hc]
        simp only []
        by_cases hm : c = '*' ∨ c = '/'
        · simp only [hm, if_true] at h ⊢
          cases hr : ReadFactor f t.Consume with
          | ok p =>
            obtain ⟨right, t1⟩ := p
            simp only [hr] at h
            have hne : t.Consume.current ≠ .End := fun hE => ReadFactor_End hE _ hr
            have hne1 : t1.current ≠ .End := fun hE => hw (ReadTermLoop_at_End h hE)
            obtain ⟨t1', hr', h1⟩ := ihF _ _ _ _ (Consume_suffix hrel hne) hr hne1
            rw [hr']
            exact ihTL _ _ _ _ _ h1 h hw
          | error e => simp [hr] at h
          | outOfFuel => simp [hr] at h
        · simp only [hm, if_false, Result.ok.injEq, Prod.mk.injEq] at h ⊢
          obtain ⟨he, hw2⟩ := h
          subst he; subst hw2
          exact ⟨t', ⟨rfl, rfl⟩, hrel⟩
    · rw [ReadTerm_succ] at h ⊢
      cases hr : ReadFactor f t with
      | ok p =>
        obtain ⟨node, t1⟩ := p
        simp only [hr] at h
        have hne1 : t1.current ≠ .End := fun hE => hw (ReadTermLoop_at_End h hE)
        obtain ⟨t1', hr', h1⟩ := ihF _ _ _ _ hrel hr hne1
        rw [hr']
        exact ihTL _ _ _ _ _ h1 h hw
      | error e => simp [hr] at h
      | outOfFuel => simp [hr] at h
    · rw [ReadExpressionLoop_succ] at h ⊢
      cases hc : t.current with
      | Number n =>
        simp only [hc, Result.ok.injEq, Prod.mk.injEq] at h
        obtain ⟨he, hw2⟩ := h
        subst he; subst hw2
        obtain ⟨m, hm⟩ := suffix_number_type hrel hc
        rw [hm]
        exact ⟨t', rfl, hrel⟩
      | End =>
        simp only [hc, Result.ok.injEq, Prod.mk.injEq] at h
        exact absurd (h.2 ▸ hc) hw
      | Symbol c =>
        simp only [hc] at h
        rw [suffix_symbol hrel hc]
        simp only []
        by_cases hm : c = '+' ∨ c = '-'
        · simp only [hm, if_true] at h ⊢
          cases hr : ReadTerm f t.Consume with
          | ok p =>
            obtain ⟨right, t1⟩ := p
            simp only [hr] at h
            have hne : t.Consume.current ≠ .End := fun hE => ReadTerm_End hE _ hr
            have hne1 : t1.current ≠ .End := fun hE => hw (ReadExpressionLoop_at_End h hE)
            obtain ⟨t1', hr', h1⟩ := ihT _ _ _ _ (Consume_suffix hrel hne) hr hne1
            rw [hr']
            exact ihEL _ _ _ _ _ h1 h hw
          | error e => simp [hr] at h
          | outOfFuel => simp [hr] at h
        · simp only [hm, if_false, Result.ok.injEq, Prod.mk.injEq] at h ⊢
          obtain ⟨he, hw2⟩ := h
          subst he; subst hw2
          exact ⟨t', ⟨rfl, rfl⟩, hrel⟩
    · rw [ReadExpression_succ] at h ⊢
      cases hr : ReadTerm f t with
      | ok p =>
        obtain ⟨node, t1⟩ := p
        simp only [hr] at h
        have hne1 : t1.current ≠ .End := fun hE => hw (ReadExpressionLoop_at_End h hE)
        obtain ⟨t1', hr', h1⟩ := ihT _ _ _ _ hrel hr hne1
        rw [hr']
        exact ihEL _ _ _ _ _ h1 h hw
      | error e => simp [hr] at h
      | outOfFuel => simp [hr] at h

/-- C12: trailing input after the top-level expression is ignored. If
`EvaluateExpression` succeeds on `s` with value `v` and the top-level parse of
`s` returns with a lookahead other than `End`, then for every `x` the input `s`
followed by `x` parses to the same tree and evaluates to `v`; `2+3)` and
`2+3)*4` give 5 and `2 3` gives 2. -/
theorem trailing_input_ignored (s x : List Char) (e : Expression) (u : Tokenizer) (v : Int)
    (hp : ParseExpression (Tokenizer.new s) = .ok (e, u)) (hu : u.current ≠ .End)
    (hv : EvaluateExpression s = .ok v) :
    EvaluateExpression (s ++ x) = .ok v ∧
      (∃ u', ParseExpression (Tokenizer.new (s ++ x)) = .ok (e, u')) ∧
      EvaluateExpression "2+3)".toList = .ok 5 ∧
      EvaluateExpression "2+3)*4".toList = .ok 5 ∧
      EvaluateExpression "2 3".toList = .ok 2 := by
  have hp' : ReadExpression (parseFuel (Tokenizer.new s)) (Tokenizer.new s) = .ok (e, u) := hp
  have hrel : SuffixExt x (Tokenizer.new s) (Tokenizer.new (s ++ x)) := by
    rcases consumeLoop_suffix x
      { in_ := s, type_ := .kEnd, number_ := 0, symbol_ := '\x00' }
      { in_ := s ++ x, type_ := .kEnd, number_ := 0, symbol_ := '\x00' } s false 0 with h | h
    · exact absurd hp' (ReadExpression_End h _)
    · exact h
  obtain ⟨u', hr', -⟩ := (suffix_parse x _).2.2.2.2 _ _ _ _ hrel hp' hu
  refine ⟨?_, ⟨u', ?_⟩, by decide, by decide, by decide⟩
  · rw [EvaluateExpression_of_parse hr', ← EvaluateExpression_of_parse hp', hv]
  · rw [ParseExpression_eq_of_fuel _ (by rw [hr']; simp), hr']

theorem trailing_input_ignored_witness :
    EvaluateExpression ("(1+2)*3 4".toList ++ "5)+x".toList) = .ok 9 :=
  (trailing_input_ignored "(1+2)*3 4".toList "5)+x".toList
    (.Operation '*' (.Operation '+' (.Constant 1 false) (.Constant 2 false) false)
      (.Constant 3 false) false)
    { in_ := [], type_ := .kNumber, number_ := 4, symbol_ := '*' } 9
    (by decide) (by decide) (by decide)).1

/-! ### Printing and parsing back -/

theorem digitChar_isDigit : ∀ k, k < 10 →
    isDigit (Nat.digitChar k) = true ∧ (Nat.digitChar k).toNat - 48 = k := by
  decide

theorem toDigitsCore_spec (fuel n : Nat) (ds : List Char) (h : n < fuel) :
    ∃ pre, Nat.toDigitsCore 10 fuel n ds = pre ++ ds ∧ pre ≠ [] ∧
      (∀ c ∈ pre, isDigit c = true) ∧
      ∀ acc : Nat, pre.foldl (fun a c => a * 10 + (c.toNat - 48)) acc =
        acc * 10 ^ pre.length + n := by
  induction fuel generalizing n ds with
  | zero => omega
  | succ fuel ih =>
    have hd := digitChar_isDigit (n % 10) (Nat.mod_lt _ (by decide))
    rw [Nat.toDigitsCore]
    by_cases h0 : n / 10 = 0
    · simp only [h0, if_true]
      refine ⟨[Nat.digitChar (n % 10)], rfl, by simp, ?_, ?_⟩
      · intro c hc
        simp only [List.mem_singleton] at hc
        rw [hc]; exact hd.1
      · intro acc
        simp only [List.foldl_cons, List.foldl_nil, List.length_singleton, pow_one, hd.2]
        omega
    · simp only [h0, if_false]
      obtain ⟨pre, hpre, -, hdig, hval⟩ :=
        ih (n / 10) (Nat.digitChar (n % 10) :: ds) (by omega)
      refine ⟨pre ++ [Nat.digitChar (n % 10)], by rw [hpre]; simp, by simp, ?_, ?_⟩
      · intro c hc
        rcases List.mem_append.1 hc with hc | hc
        · exact hdig c hc
        · simp only [List.mem_singleton] at hc
          rw [hc]; exact hd.1
      · intro acc
        rw [List.foldl_append, hval]
        simp only [List.foldl_cons, List.foldl_nil, List.length_append, List.length_singleton,
          hd.2, pow_succ]
        have := Nat.div_add_mod n 10
        nlinarith [this]

theorem toDigits_isLiteral (n : Nat) :
    IsLiteral (Nat.toDigits 10 n) ∧ decimalValue (Nat.toDigits 10 n) = n := by
  obtain ⟨pre, hpre, hne, hdig, hval⟩ := toDigitsCore_spec (n + 1) n [] (Nat.lt_succ_self n)
  rw [List.append_nil] at hpre
  unfold Nat.toDigits decimalValue
  rw [hpre]
  refine ⟨⟨hne, hdig⟩, ?_⟩
  rw [hval]
  omega

theorem isPlain_constant {v : Int} {n : Bool}
    (h : (Expression.Constant v n).isPlain = true) :
    n = false ∧ 0 ≤ v ∧ v < 9223372036854775808 := by
  simpa [Expression.isPlain, and_assoc] using h

theorem isPlain_operation {op : Char} {l r : Expression} {n : Bool}
    (h : (Expression.Operation op l r n).isPlain = true) :
    n = false ∧ (op = '+' ∨ op = '-' ∨ op = '*' ∨ op = '/') ∧
      l.isPlain = true ∧ r.isPlain = true := by
  simp only [Expression.isPlain, Bool.and_eq_true, Bool.not_eq_true', Bool.or_eq_true,
    beq_iff_eq] at h
  tauto

/-- Reading the printed form of a plain tree at a factor position gives the tree
back and stops right after the printed form. -/
theorem render_parse (e : Expression) (he : e.isPlain = true) :
    ∃ F, ∀ f, F ≤ f → ∀ (t : Tokenizer) (rest : List Char), NoDigitAhead rest →
      t.in_ = render e ++ rest →
      ∃ v : Tokenizer, v.in_ = rest ∧ ReadFactor f t.Consume = .ok (e, v.Consume) := by
  induction e with
  | Constant c n =>
    obtain ⟨hn, h0, h1⟩ := isPlain_constant he
    subst hn
    refine ⟨1, ?_⟩
    intro f hf t rest hrest hin
    obtain ⟨g, rfl⟩ : ∃ g, f = g + 1 := ⟨f - 1, by omega⟩
    have hlit := toDigits_isLiteral c.toNat
    rw [render] at hin
    have hC := Consume_literal t [] (Nat.toDigits 10 c.toNat) rest (by simp) hlit.1 hrest
      (by simpa using hin)
    have hval : wrap64 ((decimalValue (Nat.toDigits 10 c.toNat) : Nat) : Int) = c := by
      rw [hlit.2, wrap64_natCast (by omega), Int.toNat_of_nonneg h0]
    have hcur : t.Consume.current = .Number c := by
      rw [hC]
      simp only [Tokenizer.current]
      rw [hval]
    have hi : t.Consume.in_ = rest := by rw [hC]
    exact ⟨t.Consume, hi, ReadFactor_number g hcur⟩
  | Operation op l r n ihl ihr =>
    obtain ⟨hn, hop, hpl, hpr⟩ := isPlain_operation he
    subst hn
    obtain ⟨Fl, hl⟩ := ihl hpl
    obtain ⟨Fr, hr⟩ := ihr hpr
    refine ⟨Fl + Fr + 5, ?_⟩
    intro f hf t rest hrest hin
    obtain ⟨g, rfl⟩ : ∃ g, f = g + 1 + 1 + 1 + 1 + 1 := ⟨f - 5, by omega⟩
    have hopg : isGrammarSymbol op = true := by
      rcases hop with rfl | rfl | rfl | rfl <;> decide
    have hopd : isDigit op = false := by
      rcases hop with rfl | rfl | rfl | rfl <;> decide
    have hin' : t.in_ = [] ++ '(' :: (render l ++ (op :: (render r ++ (')' :: rest)))) := by
      rw [hin, render]; simp
    have h1 := Consume_symbol t [] '(' _ (by simp) (by decide) hin'
    have hc1 : t.Consume.current = .Symbol '(' := by rw [h1]; rfl
    have hin1 : t.Consume.in_ = render l ++ (op :: (render r ++ (')' :: rest))) := by rw [h1]
    obtain ⟨v1, hv1, hF1⟩ :=
      hl (g + 1 + 1) (by omega) t.Consume _ (noDigitAhead_cons _ hopd) hin1
    have h3 := Consume_symbol v1 [] op (render r ++ (')' :: rest)) (by simp) hopg
      (by simpa using hv1)
    have hc3 : v1.Consume.current = .Symbol op := by rw [h3]; rfl
    have hin3 : v1.Consume.in_ = render r ++ (')' :: rest) := by rw [h3]
    obtain ⟨v2, hv2, hF2⟩ :=
      hr (g + 1) (by omega) v1.Consume _ (noDigitAhead_cons _ (by decide)) hin3
    have h5 := Consume_symbol v2 [] ')' rest (by simp) (by decide) (by simpa using hv2)
    have hc5 : v2.Consume.current = .Symbol ')' := by rw [h5]; rfl
    have hin5 : v2.Consume.in_ = rest := by rw [h5]
    have hE : ReadExpression (g + 1 + 1 + 1 + 1) t.Consume.Consume =
        .ok (.Operation op l r false, v2.Consume) := by
      rw [ReadExpression_succ, ReadTerm_succ, hF1]
      simp only []
      by_cases hmul : op = '*' ∨ op = '/'
      · rw [ReadTermLoop_op _ _ hc3 hmul, hF2]
        simp only []
        rw [ReadTermLoop_stop _ _ (by simp [hc5])]
        simp only []
        rw [ReadExpressionLoop_stop _ _ (by simp [hc5])]
      · have hadd : op = '+' ∨ op = '-' := by tauto
        have hnm : v1.Consume.current ≠ .Symbol '*' ∧ v1.Consume.current ≠ .Symbol '/' := by
          rw [hc3]
          constructor <;> intro hh <;> cases hh <;> simp at hmul
        rw [ReadTermLoop_stop _ _ hnm]
        simp only []
        rw [ReadExpressionLoop_op _ _ hc3 hadd, ReadTerm_succ, hF2]
        simp only []
        rw [ReadTermLoop_stop _ _ (by simp [hc5])]
        simp only []
        rw [ReadExpressionLoop_stop _ _ (by simp [hc5])]
    refine ⟨v2.Consume, hin5, ?_⟩
    rw [ReadFactor_paren _ hc1, hE]

/-- C19: parsing undoes fully parenthesised printing. For every tree `e` of
non-negated constants with values in `[0, 2^63)` and non-negated operations
with operators among `+ - * /`, parsing `render e` succeeds with lookahead
`End` and returns a tree equal to `e`, whose evaluation therefore has the
outcome of evaluating `e`; the tree of `2+3*4` prints as `(2+(3*4))`. -/
theorem parse_of_render (e : Expression) (he : e.isPlain = true) :
    (∃ e' u, ParseExpression (Tokenizer.new (render e)) = .ok (e', u) ∧
        u.current = .End ∧ e' = e ∧ e'.Evaluate = e.Evaluate) ∧
      render (.Operation '+' (.Constant 2 false)
        (.Operation '*' (.Constant 3 false) (.Constant 4 false) false) false) =
        "(2+(3*4))".toList := by
  refine ⟨?_, by decide⟩
  obtain ⟨F, hF⟩ := render_parse e he
  obtain ⟨v, hv, hr⟩ := hF (F + 1) (Nat.le_succ F)
    { in_ := render e, type_ := .kEnd, number_ := 0, symbol_ := '\x00' } []
    noDigitAhead_nil (by simp)
  have hend : v.Consume.current = .End := (Consume_current_of_in_nil hv).1
  have hparse : ReadExpression (F + 1 + 1 + 1) (Tokenizer.new (render e)) =
      .ok (e, v.Consume) := by
    rw [ReadExpression_succ, ReadTerm_succ]
    unfold Tokenizer.new
    rw [hr]
    simp only []
    rw [ReadTermLoop_stop _ _ (by simp [hend])]
    simp only []
    rw [ReadExpressionLoop_stop _ _ (by simp [hend])]
  refine ⟨e, v.Consume, ?_, hend, rfl, rfl⟩
  rw [ParseExpression_eq_of_fuel _ (by rw [hparse]; simp), hparse]

theorem parse_of_render_witness :
    ∃ e' u, ParseExpression (Tokenizer.new (render
        (.Operation '/' (.Operation '-' (.Constant 10 false) (.Constant 10 false) false)
          (.Constant 0 false) false))) = .ok (e', u) ∧
      u.current = .End ∧
      e' = .Operation '/' (.Operation '-' (.Constant 10 false) (.Constant 10 false) false)
        (.Constant 0 false) false ∧
      e'.Evaluate = (Expression.Operation '/'
        (.Operation '-' (.Constant 10 false) (.Constant 10 false) false)
        (.Constant 0 false) false).Evaluate :=
  (parse_of_render (.Operation '/' (.Operation '-' (.Constant 10 false) (.Constant 10 false)
    false) (.Constant 0 false) false) (by decide)).1

end Calculator
